import Mathlib

/-!
# opentui: command tokenizer, registry, dispatcher, completion and line editor

A shallow embedding of `src/src/command_registry.cpp` (with the declarations of
`include/opentui/command_registry.hpp`), of `src/src/line_editor.cpp` on POSIX (the
keystroke loop, `RawModeGuard`, `read_line`) and of `parse_int` and the `step` and `trace`
commands of `examples/debugger/main.cpp`, and theorems about them.

Conventions of the embedding:

* a C++ `char` is a `Char`, a `std::string` / `std::string_view` is a `List Char` (`Str`);
* `std::vector<T>` is `List T`, `push_back` is `xs ++ [x]`;
* `std::function<...>` may be empty, so it is an `Option` of a function;
* a handler `void(const Args&, CommandContext&)` is a function from the arguments and the
  state of the world it can touch to the new state of that world;
* `std::map<std::string, Command, std::less<>>` is the list of its entries in iteration order
  (ascending keys), with `emplace`, `find` and `contains` walking that list by key comparison.
* a completer is a function from the partial token and the stable arguments to its
  suggestions; `std::ranges::sort` and `std::ranges::unique` work on lists;
* `std::cout` is the sequence of the characters written to it, and the keys `read` delivers
  are a list that ends when `read` fails;
* an `int` is an `Int` brought back into the 32-bit range after an addition;
  `std::from_chars` follows its documented behaviour;
* the terminal is its `termios` settings; whether `tcgetattr` and the `tcsetattr` of the guard's
  constructor succeed is given from outside, as the code branches on both.
-/

namespace opentui

/-- A `std::string`: the sequence of its `char`s. -/
abbrev Str := List Char

/-- The type `Args` of `command_registry.hpp`: `std::vector<std::string>`. -/
abbrev Args := List Str

/-- `std::isspace(static_cast<unsigned char>(c)) != 0` in the default "C" locale: space, `\t`,
`\n`, `\v`, `\f`, `\r`. -/
def isspace (c : Char) : Bool :=
  c.toNat = 32 || (9 ≤ c.toNat && c.toNat ≤ 13)

/-! ## `CommandRegistry::tokenize` (command_registry.cpp, lines 209-253) -/

/-- The local variables of `tokenize`: `tokens`, `current` and `quote` (`'\0'` when no quote
is open). -/
structure TokenizeState where
  tokens : Args
  current : Str
  quote : Char
  deriving DecidableEq, Repr

/-- The body of the loop of `tokenize` below the escape test (lines 223-245), for one
`character`. -/
def tokenizeChar (st : TokenizeState) (character : Char) : TokenizeState :=
  if st.quote ≠ '\x00' then
    if character = st.quote then
      { st with quote := '\x00' }
    else
      { st with current := st.current ++ [character] }
  else if character = '"' ∨ character = '\x27' then
    { st with quote := character }
  else if isspace character then
    if st.current ≠ [] then
      { st with tokens := st.tokens ++ [st.current], current := [] }
    else
      st
  else
    { st with current := st.current ++ [character] }

/-- The `for` loop of `tokenize` (lines 214-246) over the characters from `index` on. The
escape test `character == '\\' && (index + 1U) < line.size()` succeeds only when a
character follows; the escaped character is pushed and skipped. -/
def tokenizeLoop : List Char → TokenizeState → TokenizeState
  | [], st => st
  | [character], st => tokenizeChar st character
  | character :: next :: rest, st =>
    if character = '\x5c' then
      tokenizeLoop rest { st with current := st.current ++ [next] }
    else
      tokenizeLoop (next :: rest) (tokenizeChar st character)

/-- The flush after the loop (lines 248-252): a non-empty `current` is the last token. -/
def tokenizeFlush (st : TokenizeState) : Args :=
  if st.current ≠ [] then st.tokens ++ [st.current] else st.tokens

/-- `CommandRegistry::tokenize`. -/
def CommandRegistry.tokenize (line : Str) : Args :=
  tokenizeFlush (tokenizeLoop line { tokens := [], current := [], quote := '\x00' })

/-- An ordinary character of a word: no whitespace, no quote character, no backslash. -/
def WordChar (c : Char) : Prop :=
  isspace c = false ∧ c ≠ '"' ∧ c ≠ '\x27' ∧ c ≠ '\x5c'

instance (c : Char) : Decidable (WordChar c) := by
  unfold WordChar; infer_instance

/-- A character that may stand inside double quotes without closing or escaping: no double
quote, no backslash. -/
def QuotedChar (c : Char) : Prop :=
  c ≠ '"' ∧ c ≠ '\x5c'

instance (c : Char) : Decidable (QuotedChar c) := by
  unfold QuotedChar; infer_instance

/-- The quote variable only ever holds `'\0'`, `'"'` or `'\''`. -/
def QuoteOk (st : TokenizeState) : Prop :=
  st.quote = '\x00' ∨ st.quote = '"' ∨ st.quote = '\x27'


/-! ## The registry (command_registry.hpp; command_registry.cpp, lines 47-89 and 176-207) -/

/-- The `enum class Color` of console.hpp. -/
inductive Color
  | Default | Black | Red | Green | Yellow | Blue | Magenta | Cyan | White
  | BrightBlack | BrightRed | BrightGreen | BrightYellow | BrightBlue | BrightMagenta
  | BrightCyan | BrightWhite
  deriving DecidableEq, Repr

/-- A call made on the `Console` collaborator (console.hpp); the console is modelled by the
sequence of the calls it received. -/
inductive ConsoleCall
  | println (text : Str)
  | println_color (text : Str) (foreground : Color)
  deriving DecidableEq, Repr

/-- What a handler can touch through `CommandContext&` and through what its closure captured:
the console, the `running` flag, and the captured state `world`. -/
structure CommandContext (σ : Type) where
  console : List ConsoleCall
  running : Bool
  world : σ
  deriving DecidableEq, Repr

/-- `Console::println`. -/
def CommandContext.println {σ : Type} (context : CommandContext σ) (text : Str) :
    CommandContext σ :=
  { context with console := context.console ++ [ConsoleCall.println text] }

/-- `Console::println_color` with the default background and weight. -/
def CommandContext.println_color {σ : Type} (context : CommandContext σ) (text : Str)
    (foreground : Color) : CommandContext σ :=
  { context with console := context.console ++ [ConsoleCall.println_color text foreground] }

/-- `CommandHandler`: `std::function<void(const Args&, CommandContext&)>` when it holds a
target. -/
abbrev CommandHandler (σ : Type) := Args → CommandContext σ → CommandContext σ

/-- `CompletionHandler`: `std::function<std::vector<std::string>(std::string_view, const
Args&)>` when it holds a target. -/
abbrev CompletionHandler := Str → Args → List Str

/-- `struct Command`; an empty `std::function` is `none`. -/
structure Command (σ : Type) where
  name : Str
  description : Str
  handler : Option (CommandHandler σ)
  completer : Option CompletionHandler

/-- `std::less<>` on two `std::string`s: lexicographic comparison, character by character. -/
def strLess : Str → Str → Bool
  | [], [] => false
  | [], _ :: _ => true
  | _ :: _, [] => false
  | a :: as, b :: bs => if a < b then true else if b < a then false else strLess as bs

/-- `std::map::emplace(key, value)` on the entries in ascending key order: walks to the first
entry whose key is not less than `key`; an equivalent key there means nothing is inserted
(`false`), otherwise the new entry goes in front of it (`true`). -/
def mapEmplace {V : Type} (key : Str) (value : V) : List (Str × V) → List (Str × V) × Bool
  | [] => ([(key, value)], true)
  | (k, v) :: rest =>
    if strLess k key then
      ((k, v) :: (mapEmplace key value rest).1, (mapEmplace key value rest).2)
    else if strLess key k then
      ((key, value) :: (k, v) :: rest, true)
    else
      ((k, v) :: rest, false)

/-- `std::map::find(key)` on the entries in ascending key order: walks to the first entry whose
key is not less than `key` and yields it when `key` is not less than its key either. -/
def mapFind {V : Type} (key : Str) : List (Str × V) → Option V
  | [] => none
  | (k, v) :: rest =>
    if strLess k key then mapFind key rest
    else if strLess key k then none
    else some v

/-- `class CommandRegistry`: its only member `commands_`. -/
structure CommandRegistry (σ : Type) where
  commands_ : List (Str × Command σ)

namespace CommandRegistry

/-- A default-constructed registry. -/
def empty {σ : Type} : CommandRegistry σ :=
  { commands_ := [] }

/-- `CommandRegistry::add` (lines 60-67): the returned flag and the registry afterwards. -/
def add {σ : Type} (r : CommandRegistry σ) (command : Command σ) :
    Bool × CommandRegistry σ :=
  if command.name = [] ∨ command.handler.isNone = true then
    (false, r)
  else
    ((mapEmplace command.name command r.commands_).2,
      { commands_ := (mapEmplace command.name command r.commands_).1 })

/-- `CommandRegistry::find` (lines 73-80). -/
def find {σ : Type} (r : CommandRegistry σ) (name : Str) : Option (Command σ) :=
  mapFind name r.commands_

/-- `CommandRegistry::contains` (lines 69-71). -/
def contains {σ : Type} (r : CommandRegistry σ) (name : Str) : Bool :=
  (mapFind name r.commands_).isSome

/-- `CommandRegistry::names` (lines 82-89). -/
def names {σ : Type} (r : CommandRegistry σ) : List Str :=
  r.commands_.foldl (fun values entry => values ++ [entry.1]) []

end CommandRegistry

/-- `join_with_commas` (lines 47-56). -/
def join_with_commas (values : List Str) : Str :=
  values.enum.foldl
    (fun output entry =>
      (if entry.1 ≠ 0 then output ++ [',', ' '] else output) ++ entry.2)
    []

/-- `std::string_view::starts_with`: `name.starts_with(front)`. -/
def starts_with (name front : Str) : Bool :=
  front.isPrefixOf name

/-- `CommandRegistry::execute_line` (lines 176-207): the returned flag and the context
afterwards; `none` when an empty `std::function` is called (`std::bad_function_call`). -/
def CommandRegistry.execute_line {σ : Type} (r : CommandRegistry σ) (line : Str)
    (context : CommandContext σ) : Option (Bool × CommandContext σ) :=
  match CommandRegistry.tokenize line with
  | [] => some (true, context)
  | front :: others =>
    match r.find front with
    | none =>
      let context1 :=
        context.println_color ("Unknown command: ".toList ++ front) Color.BrightRed
      let suggestions :=
        r.commands_.foldl
          (fun suggestions entry =>
            if starts_with entry.1 front then suggestions ++ [entry.1] else suggestions)
          []
      let context2 :=
        if suggestions ≠ [] then
          context1.println ("Possible matches: ".toList ++ join_with_commas suggestions)
        else
          context1
      some (false, context2)
    | some command =>
      let args : Args := if (front :: others).length > 1 then others else []
      match command.handler with
      | none => none
      | some handler => some (true, handler args context)

/-- The registries a program can hold: `commands_` is private, so every registry is the
empty one after some sequence of `add` calls. -/
inductive CommandRegistry.Reachable {σ : Type} : CommandRegistry σ → Prop
  | empty : CommandRegistry.Reachable CommandRegistry.empty
  | add (r : CommandRegistry σ) (command : Command σ) :
      CommandRegistry.Reachable r → CommandRegistry.Reachable (r.add command).2

/-! ## `CommandRegistry::complete` (command_registry.cpp, lines 14-45 and 91-157) -/

/-- One round of the loop of `split_for_completion` (lines 18-27) on the pair
(`parts`, `current`). -/
def splitChar (st : List Str × Str) (c : Char) : List Str × Str :=
  if isspace c then
    if st.2 ≠ [] then (st.1 ++ [st.2], []) else st
  else
    (st.1, st.2 ++ [c])

/-- `split_for_completion` (lines 14-34). -/
def split_for_completion (line : Str) : List Str :=
  if (line.foldl splitChar ([], [])).2 ≠ [] then
    (line.foldl splitChar ([], [])).1 ++ [(line.foldl splitChar ([], [])).2]
  else
    (line.foldl splitChar ([], [])).1

/-- `join_with_spaces` (lines 36-45). -/
def join_with_spaces (values : Args) : Str :=
  values.enum.foldl
    (fun output entry => (if entry.1 ≠ 0 then output ++ [' '] else output) ++ entry.2)
    []

/-- The flag `trailing_space` of `complete` (lines 94-95):
`!buffer.empty() && std::isspace(buffer.back()) != 0`. -/
def trailing_space (buffer : Str) : Bool :=
  match buffer.getLast? with
  | none => false
  | some last => isspace last

/-- The split of the tokens into `stable_args` and the partial token (lines 122-134), as the
pair (partial token, `stable_args`) the completer is called with. -/
def completion_args (tokens : List Str) (trailing : Bool) : Str × Args :=
  if trailing then
    ([], if tokens.length > 1 then tokens.drop 1 else [])
  else
    (tokens.getLast?.getD [], if tokens.length > 2 then (tokens.drop 1).dropLast else [])

/-- `std::ranges::sort` on a vector of strings, insertion of one element: `x` goes in front of
the first element that is not less than it. -/
def sortInsert (x : Str) : List Str → List Str
  | [] => [x]
  | y :: ys => if strLess y x then y :: sortInsert x ys else x :: y :: ys

/-- `std::ranges::sort` on a vector of strings: the ascending rearrangement under `<`. -/
def ranges_sort (values : List Str) : List Str :=
  values.foldr sortInsert []

/-- `std::ranges::unique` followed by `erase`: of every run of equal neighbours only the first
is kept. -/
def ranges_unique : List Str → List Str
  | [] => []
  | [x] => [x]
  | x :: y :: rest => if x = y then ranges_unique (y :: rest) else x :: ranges_unique (y :: rest)

/-- The end of `complete` (lines 137-156): the full lines built from the `suggestions` of the
completer, sorted and without repetitions. -/
def completion_lines (command_name : Str) (stable_args : Args) (suggestions : List Str) :
    List Str :=
  if suggestions = [] then
    []
  else
    ranges_unique (ranges_sort (suggestions.map (fun suggestion =>
      (command_name ++ [' '] ++
        (if stable_args ≠ [] then join_with_spaces stable_args ++ [' '] else [])) ++
        suggestion)))

/-- `CommandRegistry::complete` (lines 91-157). -/
def CommandRegistry.complete {σ : Type} (r : CommandRegistry σ) (buffer : Str) : List Str :=
  match split_for_completion buffer with
  | [] =>
    r.names.foldl (fun completions command_name => completions ++ [command_name ++ [' ']]) []
  | front :: others =>
    if (front :: others).length = 1 ∧ trailing_space buffer = false then
      r.commands_.foldl
        (fun completions entry =>
          if starts_with entry.1 front then completions ++ [entry.1 ++ [' ']] else completions)
        []
    else
      match r.find front with
      | none => []
      | some command =>
        match command.completer with
        | none => []
        | some completer =>
          completion_lines front (completion_args (front :: others) (trailing_space buffer)).2
            (completer (completion_args (front :: others) (trailing_space buffer)).1
              (completion_args (front :: others) (trailing_space buffer)).2)

/-! ## `LineEditor::read_line`, the keystroke loop (line_editor.cpp, lines 17-27 and 142-188) -/

/-- `std::isprint(static_cast<unsigned char>(key)) != 0` in the default "C" locale. -/
def isprint (c : Char) : Bool :=
  32 ≤ c.toNat && c.toNat ≤ 126

/-- `redraw` (lines 17-19): what it writes to `std::cout`, appended to `output`. -/
def redraw (prompt buffer output : Str) : Str :=
  output ++ '\r' :: (prompt ++ buffer ++ ['\x1b', '[', 'K'])

/-- `print_candidates` (lines 21-27): what it writes to `std::cout`, appended to `output`. -/
def print_candidates (candidates : List Str) (output : Str) : Str :=
  candidates.foldl (fun written candidate => written ++ candidate ++ [' ', ' '])
    (output ++ ['\n']) ++ ['\n']

/-- What one round of the keystroke loop does: `read_line` returns (`std::nullopt` is `none`),
or the loop goes on with a buffer. Both carry what was written to `std::cout` so far. -/
inductive KeyStep
  | returned (result : Option Str) (output : Str)
  | reading (buffer : Str) (output : Str)
  deriving DecidableEq, Repr

/-- One round of the POSIX keystroke loop after a successful `read` of `key` (lines 148-187). -/
def read_line_key (prompt : Str) (completion_provider : Str → List Str) (buffer output : Str)
    (key : Char) : KeyStep :=
  if key = '\x04' ∧ buffer = [] then
    KeyStep.returned none (output ++ ['\n'])
  else if key = '\r' ∨ key = '\n' then
    KeyStep.returned (some buffer) (output ++ ['\n'])
  else if key = '\x08' ∨ key = '\x7f' then
    if buffer ≠ [] then
      KeyStep.reading buffer.dropLast (redraw prompt buffer.dropLast output)
    else
      KeyStep.reading buffer output
  else if key = '\t' then
    if completion_provider buffer = [] then
      KeyStep.reading buffer (output ++ ['\x07'])
    else if (completion_provider buffer).length = 1 then
      KeyStep.reading ((completion_provider buffer).headD [])
        (redraw prompt ((completion_provider buffer).headD []) output)
    else
      KeyStep.reading buffer
        (redraw prompt buffer (print_candidates (completion_provider buffer) output))
  else if isprint key then
    KeyStep.reading (buffer ++ [key]) (redraw prompt (buffer ++ [key]) output)
  else
    KeyStep.reading buffer output

/-- The POSIX keystroke loop (lines 142-188) on the keys `read` will deliver; when they are
used up `read` does not return 1 and `read_line` returns `std::nullopt`. The result is what
`read_line` returns and what was written to `std::cout`. -/
def read_line_loop (prompt : Str) (completion_provider : Str → List Str) :
    List Char → Str → Str → Option Str × Str
  | [], _, output => (none, output)
  | key :: keys, buffer, output =>
    match read_line_key prompt completion_provider buffer output key with
    | KeyStep.returned result written => (result, written)
    | KeyStep.reading buffer1 written =>
      read_line_loop prompt completion_provider keys buffer1 written

/-! ## The `trace` command of the example (examples/debugger/main.cpp, lines 88-131) -/

/-- The members of `DebuggerApp` the handlers touch. -/
structure DebuggerApp where
  program_counter_ : Int
  tracing_enabled_ : Bool
  deriving DecidableEq, Repr

/-- The handler of `trace` (lines 92-113). -/
def traceHandler : CommandHandler DebuggerApp := fun args context =>
  if args.length ≠ 1 then
    context.println_color "Usage: trace <on|off>".toList Color.BrightRed
  else if args.headD [] = "on".toList then
    { context with world := { context.world with tracing_enabled_ := true } }.println_color
      "Trace enabled.".toList Color.BrightYellow
  else if args.headD [] = "off".toList then
    { context with world := { context.world with tracing_enabled_ := false } }.println_color
      "Trace disabled.".toList Color.BrightYellow
  else
    context.println_color "Usage: trace <on|off>".toList Color.BrightRed

/-- The completer of `trace` (lines 115-130); `typed` is its parameter `partial`. -/
def traceCompleter : CompletionHandler := fun typed args =>
  if args ≠ [] then
    []
  else if typed = [] then
    ["on".toList, "off".toList]
  else
    ["on".toList, "off".toList].filter (fun option => starts_with option typed)

/-- The `trace` command as the example registers it. -/
def traceCommand : Command DebuggerApp :=
  { name := "trace".toList, description := "Set trace mode: on|off.".toList,
    handler := some traceHandler, completer := some traceCompleter }

/-- The registry after registering `trace`. -/
def traceRegistry : CommandRegistry DebuggerApp :=
  (CommandRegistry.empty.add traceCommand).2

/-! ## `parse_int` and the `step` command (examples/debugger/main.cpp, lines 14-23 and 63-86) -/

/-- A decimal digit, as `std::from_chars` recognises it in base 10. -/
def isdigit (c : Char) : Bool :=
  48 ≤ c.toNat && c.toNat ≤ 57

/-- The number a sequence of decimal digits denotes. -/
def digitsValue (digits : Str) : Nat :=
  digits.foldl (fun value c => 10 * value + (c.toNat - 48)) 0

/-- The values of `std::errc` that `std::from_chars` reports. -/
inductive Errc
  | ok | invalid_argument | result_out_of_range
  deriving DecidableEq, Repr

/-- What `std::from_chars` leaves behind: the unread characters from `ptr` on, the error code
`ec`, and the variable `value` after the call. -/
structure FromCharsResult where
  rest : Str
  ec : Errc
  value : Int
  deriving DecidableEq, Repr

/-- `std::from_chars(begin, end, value)` for an `int` in base 10: the pattern is an optional
minus sign followed by at least one digit, without leading whitespace and without plus sign.
No match: `invalid_argument`, `ptr` at the start. A match that does not fit an `int`:
`result_out_of_range`, `ptr` behind the digits. In both cases `value` is untouched. -/
def from_chars (text : Str) (value : Int) : FromCharsResult :=
  if (if text.head? = some '-' then text.drop 1 else text).takeWhile isdigit = [] then
    { rest := text, ec := Errc.invalid_argument, value := value }
  else if
      (if text.head? = some '-' then
          -((digitsValue ((text.drop 1).takeWhile isdigit) : Nat) : Int)
        else ((digitsValue (text.takeWhile isdigit) : Nat) : Int)) < -2147483648 ∨
      2147483647 < (if text.head? = some '-' then
          -((digitsValue ((text.drop 1).takeWhile isdigit) : Nat) : Int)
        else ((digitsValue (text.takeWhile isdigit) : Nat) : Int)) then
    { rest := (if text.head? = some '-' then text.drop 1 else text).dropWhile isdigit,
      ec := Errc.result_out_of_range, value := value }
  else
    { rest := (if text.head? = some '-' then text.drop 1 else text).dropWhile isdigit,
      ec := Errc.ok,
      value := if text.head? = some '-' then
          -((digitsValue ((text.drop 1).takeWhile isdigit) : Nat) : Int)
        else ((digitsValue (text.takeWhile isdigit) : Nat) : Int) }

/-- `parse_int` (lines 14-23). -/
def parse_int (text : Str) : Option Int :=
  if (from_chars text 0).ec ≠ Errc.ok ∨ (from_chars text 0).rest ≠ [] then
    none
  else
    some (from_chars text 0).value

/-- Arithmetic on `int`: the result brought back into the 32-bit range (an `int` addition that
leaves the range is undefined in C++ and wraps around on the usual two's complement build;
the general theorems only use sums inside the range). -/
def wrapInt (x : Int) : Int :=
  (x + 2147483648) % 4294967296 - 2147483648

/-- `std::to_string` of an `int`. -/
def to_string (value : Int) : Str :=
  (toString value).toList

/-- The handler of `step` (lines 67-84). -/
def stepHandler : CommandHandler DebuggerApp := fun args context =>
  if args ≠ [] then
    match parse_int (args.headD []) with
    | none => context.println_color "Usage: step [positive_integer]".toList Color.BrightRed
    | some parsed =>
      if parsed ≤ 0 then
        context.println_color "Usage: step [positive_integer]".toList Color.BrightRed
      else
        { context with
          world := { context.world with
            program_counter_ := wrapInt (context.world.program_counter_ + parsed) }
        }.println_color
          ("Stepped to ".toList ++
            to_string (wrapInt (context.world.program_counter_ + parsed)))
          Color.BrightCyan
  else
    { context with
      world := { context.world with
        program_counter_ := wrapInt (context.world.program_counter_ + 1) }
    }.println_color
      ("Stepped to ".toList ++ to_string (wrapInt (context.world.program_counter_ + 1)))
      Color.BrightCyan

/-- The `step` command as the example registers it. -/
def stepCommand : Command DebuggerApp :=
  { name := "step".toList,
    description := "Increment program counter by N (default: 1).".toList,
    handler := some stepHandler, completer := none }

/-- The registry after registering `step` and `trace`. -/
def stepRegistry : CommandRegistry DebuggerApp :=
  ((CommandRegistry.empty.add stepCommand).2.add traceCommand).2

/-- A fresh `DebuggerApp` with an empty console: `program_counter_{0}`,
`tracing_enabled_{false}`. -/
def debuggerStart : CommandContext DebuggerApp :=
  { console := [], running := true,
    world := { program_counter_ := 0, tracing_enabled_ := false } }

/-- `text` is a decimal text of the number `n`: a non-empty sequence of decimal digits that
denotes `n`. The text `Nat.toDigits 10 n` that Lean prints for `n` is one. -/
def IsDecimalText (text : Str) (n : Nat) : Prop :=
  text ≠ [] ∧ (∀ ch ∈ text, isdigit ch = true) ∧ digitsValue text = n

/-! ## `RawModeGuard` and `LineEditor::read_line` on POSIX (line_editor.cpp, lines 30-81 and
133-190) -/

/-- The fields of `termios` the guard changes. -/
structure Termios where
  c_lflag : Nat
  c_cc_VMIN : Nat
  c_cc_VTIME : Nat
  deriving DecidableEq, Repr

/-- The flag `ICANON` of `<termios.h>` (its value on Linux). -/
def ICANON : Nat := 2

/-- The flag `ECHO` of `<termios.h>` (its value on Linux). -/
def ECHO : Nat := 8

/-- What the surroundings of one `read_line` call will answer: `is_interactive()`, whether
`tcgetattr` and the `tcsetattr` of the guard's constructor succeed, the keys `read` delivers
one by one, and what `std::getline` delivers (`none` when it fails). -/
structure ReadEnv where
  interactive : Bool
  tcgetattr_ok : Bool
  tcsetattr_ok : Bool
  keys : List Char
  getline : Option Str
  deriving DecidableEq, Repr

/-- `class RawModeGuard`: its members. -/
structure RawModeGuard where
  original_state_ : Termios
  enabled_ : Bool
  deriving DecidableEq, Repr

/-- The raw settings the constructor asks for (lines 37-40): `ICANON` and `ECHO` cleared in
the `unsigned long` mask, `VMIN` 1, `VTIME` 0. -/
def rawState (original_state_ : Termios) : Termios :=
  { c_lflag := original_state_.c_lflag &&& (18446744073709551615 - (ICANON ||| ECHO)),
    c_cc_VMIN := 1, c_cc_VTIME := 0 }

/-- The constructor of `RawModeGuard` (lines 32-47) on the terminal settings `settings`: the
guard and the settings afterwards. A failed `tcgetattr` or `tcsetattr` changes nothing. -/
def RawModeGuard.construct (env : ReadEnv) (settings : Termios) : RawModeGuard × Termios :=
  if env.tcgetattr_ok = false then
    ({ original_state_ := { c_lflag := 0, c_cc_VMIN := 0, c_cc_VTIME := 0 },
       enabled_ := false }, settings)
  else if env.tcsetattr_ok = false then
    ({ original_state_ := settings, enabled_ := false }, settings)
  else
    ({ original_state_ := settings, enabled_ := true }, rawState settings)

/-- The destructor of `RawModeGuard` (lines 49-55): the terminal settings afterwards. Its
`tcsetattr` call, whose result the code does not look at, puts `original_state_` in place. -/
def RawModeGuard.destruct (guard : RawModeGuard) (settings : Termios) : Termios :=
  if guard.enabled_ = false then settings else guard.original_state_

/-- What a `read_line` call leaves behind: the returned value, the terminal settings at
return, the settings while the keystroke loop ran (`none` when it did not run), and what was
written to `std::cout`. -/
structure ReadLineResult where
  result : Option Str
  settings : Termios
  loop_settings : Option Termios
  output : Str
  deriving DecidableEq, Repr

/-- `LineEditor::read_line` on POSIX (lines 69-81 and 133-190); the guard is destroyed on
every way out of the function, after the returned value is made. -/
def LineEditor.read_line (env : ReadEnv) (prompt : Str)
    (completion_provider : Str → List Str) (settings : Termios) (output : Str) :
    ReadLineResult :=
  if env.interactive = false then
    { result := env.getline, settings := settings, loop_settings := none, output := output }
  else if (RawModeGuard.construct env settings).1.enabled_ = false then
    { result := env.getline,
      settings := (RawModeGuard.construct env settings).1.destruct
        (RawModeGuard.construct env settings).2,
      loop_settings := none,
      output := output ++ prompt }
  else
    { result := (read_line_loop prompt completion_provider env.keys [] (output ++ prompt)).1,
      settings := (RawModeGuard.construct env settings).1.destruct
        (RawModeGuard.construct env settings).2,
      loop_settings := some (RawModeGuard.construct env settings).2,
      output := (read_line_loop prompt completion_provider env.keys [] (output ++ prompt)).2 }

/-! ## Fixtures for concrete evaluations -/

/-- A command that only has a name and a handler which leaves the world alone. -/
def plainCommand (name : Str) : Command Unit :=
  { name := name, description := [], handler := some (fun _ context => context),
    completer := none }

/-- A command whose handler records the arguments it was called with on the console. -/
def echoCommand (name : Str) : Command Unit :=
  { name := name, description := "echo".toList,
    handler := some (fun args context =>
      context.println (name ++ ':' :: join_with_commas args)),
    completer := none }

/-- The registry after registering `help` and then `hello`. -/
def helpHelloRegistry : CommandRegistry Unit :=
  ((CommandRegistry.empty.add (echoCommand "help".toList)).2.add
    (echoCommand "hello".toList)).2

/-- A context with an empty console. -/
def freshContext : CommandContext Unit :=
  { console := [], running := true, world := () }

/-! # Theorems -/

/-! ### Stepping lemmas for the tokenizer loop -/

theorem tokenizeLoop_cons_of_ne (character : Char) (rest : List Char) (st : TokenizeState)
    (h : character ≠ '\x5c') :
    tokenizeLoop (character :: rest) st = tokenizeLoop rest (tokenizeChar st character) := by
  cases rest with
  | nil => simp [tokenizeLoop]
  | cons next rest => simp [tokenizeLoop, h]

theorem tokenizeLoop_escape (x : Char) (rest : List Char) (st : TokenizeState) :
    tokenizeLoop ('\x5c' :: x :: rest) st =
      tokenizeLoop rest { st with current := st.current ++ [x] } := by
  simp [tokenizeLoop]

theorem tokenizeChar_word (T : Args) (cur : Str) (c : Char) (h : WordChar c) :
    tokenizeChar { tokens := T, current := cur, quote := '\x00' } c =
      { tokens := T, current := cur ++ [c], quote := '\x00' } := by
  obtain ⟨h1, h2, h3, _⟩ := h
  simp [tokenizeChar, h1, h2, h3]

theorem tokenizeChar_quoted (T : Args) (cur : Str) (q c : Char) (hq : q ≠ '\x00')
    (h : c ≠ q) :
    tokenizeChar { tokens := T, current := cur, quote := q } c =
      { tokens := T, current := cur ++ [c], quote := q } := by
  simp [tokenizeChar, hq, h]

theorem tokenizeLoop_word (w : Str) (hw : ∀ ch ∈ w, WordChar ch) (rest : List Char)
    (T : Args) (cur : Str) :
    tokenizeLoop (w ++ rest) { tokens := T, current := cur, quote := '\x00' } =
      tokenizeLoop rest { tokens := T, current := cur ++ w, quote := '\x00' } := by
  induction w generalizing cur with
  | nil => simp
  | cons c w ih =>
    have hc : WordChar c := hw c (List.mem_cons_self c w)
    rw [List.cons_append, tokenizeLoop_cons_of_ne c _ _ hc.2.2.2, tokenizeChar_word T cur c hc,
      ih (fun ch hch => hw ch (List.mem_cons_of_mem c hch))]
    simp

theorem tokenizeLoop_quoted (s : Str) (q : Char) (hq : q ≠ '\x00')
    (hs : ∀ ch ∈ s, ch ≠ q ∧ ch ≠ '\x5c') (rest : List Char) (T : Args) (cur : Str) :
    tokenizeLoop (s ++ rest) { tokens := T, current := cur, quote := q } =
      tokenizeLoop rest { tokens := T, current := cur ++ s, quote := q } := by
  induction s generalizing cur with
  | nil => simp
  | cons c s ih =>
    have hc := hs c (List.mem_cons_self c s)
    rw [List.cons_append, tokenizeLoop_cons_of_ne c _ _ hc.2,
      tokenizeChar_quoted T cur q c hq hc.1, ih (fun ch hch => hs ch (List.mem_cons_of_mem c hch))]
    simp

/-- C1. Quoting: for non-empty words `a` and `c` without whitespace, quote characters or
backslashes, and a non-empty `s` without double quote or backslash, the line
`a "s" c` tokenizes to exactly `[a, s, c]`; in particular `foo "bar baz" qux` tokenizes to
`["foo", "bar baz", "qux"]`. -/
theorem tokenize_quoted_word (a s c : Str) (ha : a ≠ []) (hs : s ≠ []) (hc : c ≠ [])
    (hwa : ∀ ch ∈ a, WordChar ch) (hqs : ∀ ch ∈ s, QuotedChar ch)
    (hwc : ∀ ch ∈ c, WordChar ch) :
    CommandRegistry.tokenize (a ++ ' ' :: '"' :: (s ++ '"' :: ' ' :: c)) = [a, s, c] ∧
      CommandRegistry.tokenize "foo \"bar baz\" qux".toList =
        ["foo".toList, "bar baz".toList, "qux".toList] := by
  refine ⟨?_, by decide⟩
  have h1 := tokenizeLoop_word a hwa (' ' :: '"' :: (s ++ '"' :: ' ' :: c)) [] []
  have h2 := tokenizeLoop_quoted s '"' (by decide) hqs ('"' :: ' ' :: c) [a] []
  have h3 := tokenizeLoop_word c hwc [] [a, s] []
  simp only [List.nil_append, List.append_nil] at h1 h2 h3
  unfold CommandRegistry.tokenize
  rw [h1, tokenizeLoop_cons_of_ne _ _ _ (by decide)]
  have e1 : tokenizeChar { tokens := [], current := a, quote := '\x00' } ' ' =
      { tokens := [a], current := [], quote := '\x00' } := by
    simp [tokenizeChar, isspace, ha]
  rw [e1, tokenizeLoop_cons_of_ne _ _ _ (by decide)]
  have e2 : tokenizeChar { tokens := [a], current := [], quote := '\x00' } '"' =
      { tokens := [a], current := [], quote := '"' } := by
    simp [tokenizeChar]
  rw [e2, h2, tokenizeLoop_cons_of_ne _ _ _ (by decide)]
  have e3 : tokenizeChar { tokens := [a], current := s, quote := '"' } '"' =
      { tokens := [a], current := s, quote := '\x00' } := by
    simp [tokenizeChar]
  rw [e3, tokenizeLoop_cons_of_ne _ _ _ (by decide)]
  have e4 : tokenizeChar { tokens := [a], current := s, quote := '\x00' } ' ' =
      { tokens := [a, s], current := [], quote := '\x00' } := by
    simp [tokenizeChar, isspace, hs]
  rw [e4]
  rw [h3]
  simp [tokenizeLoop, tokenizeFlush, hc]

theorem tokenize_quoted_word_witness :
    CommandRegistry.tokenize ("ls".toList ++ ' ' :: '"' :: ("my dir".toList ++ '"' :: ' ' :: "x".toList)) =
      ["ls".toList, "my dir".toList, "x".toList] :=
  (tokenize_quoted_word "ls".toList "my dir".toList "x".toList (by decide) (by decide)
    (by decide) (by decide) (by decide) (by decide)).1

/-- C2. Backslash escapes: for every character `x` and all `u`, `v` without whitespace, quote
characters or backslashes, `u\xv` tokenizes to the single token `uxv`, and so does the same
text inside double quotes; in particular `a\ b c` tokenizes to `["a b", "c"]`. -/
theorem tokenize_escape (x : Char) (u v : Str) (hu : ∀ ch ∈ u, WordChar ch)
    (hv : ∀ ch ∈ v, WordChar ch) :
    CommandRegistry.tokenize (u ++ '\x5c' :: x :: v) = [u ++ x :: v] ∧
      CommandRegistry.tokenize ('"' :: (u ++ '\x5c' :: x :: (v ++ ['"']))) = [u ++ x :: v] ∧
      CommandRegistry.tokenize "a\\ b c".toList = ["a b".toList, "c".toList] := by
  refine ⟨?_, ?_, by decide⟩
  · have h1 := tokenizeLoop_word u hu ('\x5c' :: x :: v) [] []
    have h2 := tokenizeLoop_word v hv [] [] (u ++ [x])
    simp only [List.nil_append, List.append_nil] at h1 h2
    unfold CommandRegistry.tokenize
    rw [h1, tokenizeLoop_escape, h2]
    simp [tokenizeLoop, tokenizeFlush]
  · have hq : ∀ w : Str, (∀ ch ∈ w, WordChar ch) → ∀ ch ∈ w, ch ≠ '"' ∧ ch ≠ '\x5c' :=
      fun w hw ch hch => ⟨(hw ch hch).2.1, (hw ch hch).2.2.2⟩
    have h1 := tokenizeLoop_quoted u '"' (by decide) (hq u hu) ('\x5c' :: x :: (v ++ ['"'])) [] []
    have h2 := tokenizeLoop_quoted v '"' (by decide) (hq v hv) ['"'] [] (u ++ [x])
    simp only [List.nil_append] at h1
    unfold CommandRegistry.tokenize
    rw [tokenizeLoop_cons_of_ne _ _ _ (by decide)]
    have e1 : tokenizeChar { tokens := [], current := [], quote := '\x00' } '"' =
        { tokens := [], current := [], quote := '"' } := by
      simp [tokenizeChar]
    rw [e1, h1, tokenizeLoop_escape, h2]
    simp [tokenizeLoop, tokenizeChar, tokenizeFlush]

theorem tokenize_escape_witness :
    CommandRegistry.tokenize ("a".toList ++ '\x5c' :: ' ' :: "b".toList) = ["a".toList ++ ' ' :: "b".toList] ∧
      CommandRegistry.tokenize ('"' :: ("a".toList ++ '\x5c' :: ' ' :: ("b".toList ++ ['"']))) =
        ["a".toList ++ ' ' :: "b".toList] :=
  ⟨(tokenize_escape ' ' "a".toList "b".toList (by decide) (by decide)).1,
    (tokenize_escape ' ' "a".toList "b".toList (by decide) (by decide)).2.1⟩

/-- C3. Unterminated quote: for a non-empty word `a` without whitespace, quote characters or
backslashes and a non-empty `s` without double quote or backslash, the line `a "s` tokenizes
to `[a, s]` (the function is total, so no error is raised); in particular `say "hello`
tokenizes to `["say", "hello"]`. -/
theorem tokenize_unterminated_quote (a s : Str) (ha : a ≠ []) (hs : s ≠ [])
    (hwa : ∀ ch ∈ a, WordChar ch) (hqs : ∀ ch ∈ s, QuotedChar ch) :
    CommandRegistry.tokenize (a ++ ' ' :: '"' :: s) = [a, s] ∧
      CommandRegistry.tokenize "say \"hello".toList = ["say".toList, "hello".toList] := by
  refine ⟨?_, by decide⟩
  have h1 := tokenizeLoop_word a hwa (' ' :: '"' :: s) [] []
  have h2 := tokenizeLoop_quoted s '"' (by decide) hqs [] [a] []
  simp only [List.nil_append, List.append_nil] at h1 h2
  unfold CommandRegistry.tokenize
  rw [h1, tokenizeLoop_cons_of_ne _ _ _ (by decide)]
  have e1 : tokenizeChar { tokens := [], current := a, quote := '\x00' } ' ' =
      { tokens := [a], current := [], quote := '\x00' } := by
    simp [tokenizeChar, isspace, ha]
  rw [e1, tokenizeLoop_cons_of_ne _ _ _ (by decide)]
  have e2 : tokenizeChar { tokens := [a], current := [], quote := '\x00' } '"' =
      { tokens := [a], current := [], quote := '"' } := by
    simp [tokenizeChar]
  rw [e2, h2]
  simp [tokenizeLoop, tokenizeFlush, hs]

theorem tokenize_unterminated_quote_witness :
    CommandRegistry.tokenize ("echo".toList ++ ' ' :: '"' :: "a b 'c".toList) =
      ["echo".toList, "a b 'c".toList] :=
  (tokenize_unterminated_quote "echo".toList "a b 'c".toList (by decide) (by decide)
    (by decide) (by decide)).1

/-! ### The trailing backslash -/

theorem tokenizeChar_quoteOk (st : TokenizeState) (c : Char) (h : QuoteOk st) :
    QuoteOk (tokenizeChar st c) := by
  unfold tokenizeChar
  split_ifs with h1 h2 h3 h4 h5
  · exact Or.inl rfl
  · exact h
  · rcases h3 with h3 | h3
    · exact Or.inr (Or.inl h3)
    · exact Or.inr (Or.inr h3)
  · exact h
  · exact h
  · exact h

theorem foldl_tokenizeChar_quoteOk (s : Str) (st : TokenizeState) (h : QuoteOk st) :
    QuoteOk (s.foldl tokenizeChar st) := by
  induction s generalizing st with
  | nil => exact h
  | cons c s ih => exact ih _ (tokenizeChar_quoteOk st c h)

/-- On a stretch without backslashes the loop is a plain fold of `tokenizeChar`. -/
theorem tokenizeLoop_append_of_no_backslash (s : Str) (hs : ∀ ch ∈ s, ch ≠ '\x5c')
    (rest : List Char) (st : TokenizeState) :
    tokenizeLoop (s ++ rest) st = tokenizeLoop rest (s.foldl tokenizeChar st) := by
  induction s generalizing st with
  | nil => rfl
  | cons c s ih =>
    rw [List.cons_append, tokenizeLoop_cons_of_ne c _ _ (hs c (List.mem_cons_self c s)),
      ih (fun ch hch => hs ch (List.mem_cons_of_mem c hch))]
    rfl

/-- A backslash that reaches `tokenizeChar` (the escape test failed) is pushed onto `current`
like any ordinary character, inside and outside quotes. -/
theorem tokenizeChar_backslash (st : TokenizeState) (h : QuoteOk st) :
    tokenizeChar st '\x5c' = { st with current := st.current ++ ['\x5c'] } := by
  unfold tokenizeChar
  rcases h with h | h | h <;> simp [h, isspace]

/-- C4, as stated, fails: `foo\` tokenizes to the one token `foo\`, not to the tokens of
`foo`. -/
theorem tokenize_trailing_backslash_not_dropped :
    CommandRegistry.tokenize ("foo".toList ++ ['\x5c']) = ["foo".toList ++ ['\x5c']] ∧
      CommandRegistry.tokenize ("foo".toList ++ ['\x5c']) ≠ CommandRegistry.tokenize "foo".toList := by
  decide

/-- C4, amended. A trailing backslash is kept: for every line `s` without a backslash there
are finished tokens `T` and a token in progress `cur` (possibly empty) such that `s` tokenizes
to `T` followed by `cur` when `cur` is non-empty, and `s\` tokenizes to `T` followed by
`cur\`. -/
theorem tokenize_trailing_backslash_kept (s : Str) (hs : ∀ ch ∈ s, ch ≠ '\x5c') :
    ∃ (T : Args) (cur : Str),
      CommandRegistry.tokenize s = (if cur ≠ [] then T ++ [cur] else T) ∧
        CommandRegistry.tokenize (s ++ ['\x5c']) = T ++ [cur ++ ['\x5c']] := by
  have h0 : QuoteOk { tokens := [], current := [], quote := '\x00' } := Or.inl rfl
  have hq := foldl_tokenizeChar_quoteOk s _ h0
  have h1 := tokenizeLoop_append_of_no_backslash s hs [] { tokens := [], current := [], quote := '\x00' }
  have h2 := tokenizeLoop_append_of_no_backslash s hs ['\x5c']
    { tokens := [], current := [], quote := '\x00' }
  simp only [List.append_nil] at h1
  refine ⟨(s.foldl tokenizeChar { tokens := [], current := [], quote := '\x00' }).tokens,
    (s.foldl tokenizeChar { tokens := [], current := [], quote := '\x00' }).current, ?_, ?_⟩
  · unfold CommandRegistry.tokenize
    rw [h1]
    simp [tokenizeLoop, tokenizeFlush]
  · unfold CommandRegistry.tokenize
    rw [h2]
    simp [tokenizeLoop, tokenizeChar_backslash _ hq, tokenizeFlush]

theorem tokenize_trailing_backslash_kept_witness :
    ∃ (T : Args) (cur : Str),
      CommandRegistry.tokenize "run \"a b".toList = (if cur ≠ [] then T ++ [cur] else T) ∧
        CommandRegistry.tokenize ("run \"a b".toList ++ ['\x5c']) = T ++ [cur ++ ['\x5c']] :=
  tokenize_trailing_backslash_kept "run \"a b".toList (by decide)

/-! ### `std::less<>` on strings is a strict total order -/

theorem strLess_irrefl (a : Str) : strLess a a = false := by
  induction a with
  | nil => rfl
  | cons c a ih => simp [strLess, ih]

theorem strLess_asymm (a b : Str) (h : strLess a b = true) : strLess b a = false := by
  induction a generalizing b with
  | nil => cases b <;> simp_all [strLess]
  | cons c a ih =>
    cases b with
    | nil => simp [strLess] at h
    | cons d b =>
      simp only [strLess] at h ⊢
      by_cases h1 : c < d
      · simp [h1, lt_asymm h1]
      · by_cases h2 : d < c
        · simp [h1, h2] at h
        · simp only [h1, h2, if_false] at h ⊢
          exact ih b h

theorem strLess_trans (a b c : Str) (hab : strLess a b = true) (hbc : strLess b c = true) :
    strLess a c = true := by
  induction a generalizing b c with
  | nil =>
    cases b with
    | nil => simp [strLess] at hab
    | cons y b =>
      cases c with
      | nil => simp [strLess] at hbc
      | cons z c => simp [strLess]
  | cons x a ih =>
    cases b with
    | nil => simp [strLess] at hab
    | cons y b =>
      cases c with
      | nil => simp [strLess] at hbc
      | cons z c =>
        simp only [strLess] at hab hbc ⊢
        by_cases hxy : x < y
        · by_cases hyz : y < z
          · simp [lt_trans hxy hyz]
          · by_cases hzy : z < y
            · simp [hyz, hzy] at hbc
            · have e : y = z := le_antisymm (not_lt.mp hzy) (not_lt.mp hyz)
              subst e
              simp [hxy]
        · by_cases hyx : y < x
          · simp [hxy, hyx] at hab
          · have e : x = y := le_antisymm (not_lt.mp hyx) (not_lt.mp hxy)
            subst e
            simp only [hxy, if_false] at hab
            by_cases hxz : x < z
            · simp [hxz]
            · by_cases hzx : z < x
              · simp [hxz, hzx] at hbc
              · simp only [hxz, hzx, if_false] at hbc ⊢
                exact ih b c hab hbc

theorem strLess_total (a b : Str) (hab : strLess a b = false) (hba : strLess b a = false) :
    a = b := by
  induction a generalizing b with
  | nil => cases b <;> simp_all [strLess]
  | cons x a ih =>
    cases b with
    | nil => simp [strLess] at hba
    | cons y b =>
      simp only [strLess] at hab hba
      by_cases hxy : x < y
      · simp [hxy] at hab
      · by_cases hyx : y < x
        · simp [hyx] at hba
        · have e : x = y := le_antisymm (not_lt.mp hyx) (not_lt.mp hxy)
          subst e
          simp only [hxy, if_false] at hab hba
          rw [ih b hab hba]

/-! ### The ordered map -/

theorem mapEmplace_snd {V : Type} (key : Str) (value : V) (m : List (Str × V)) :
    (mapEmplace key value m).2 = !(mapFind key m).isSome := by
  induction m with
  | nil => rfl
  | cons e m ih =>
    obtain ⟨k, v⟩ := e
    simp only [mapEmplace, mapFind]
    split_ifs <;> simp [ih]

theorem mapEmplace_fst_of_not_inserted {V : Type} (key : Str) (value : V) (m : List (Str × V))
    (h : (mapEmplace key value m).2 = false) : (mapEmplace key value m).1 = m := by
  induction m with
  | nil => simp [mapEmplace] at h
  | cons e m ih =>
    obtain ⟨k, v⟩ := e
    simp only [mapEmplace] at h ⊢
    split_ifs at h ⊢ with h1 h2
    · simp only at h ⊢
      rw [ih h]
    · rfl

theorem mapFind_mapEmplace_self {V : Type} (key : Str) (value : V) (m : List (Str × V))
    (h : (mapEmplace key value m).2 = true) :
    mapFind key (mapEmplace key value m).1 = some value := by
  induction m with
  | nil => simp [mapEmplace, mapFind, strLess_irrefl]
  | cons e m ih =>
    obtain ⟨k, v⟩ := e
    simp only [mapEmplace] at h ⊢
    split_ifs at h ⊢ with h1 h2
    · simp only at h ⊢
      simp [mapFind, h1, ih h]
    · simp [mapFind, strLess_irrefl]

theorem mem_mapEmplace {V : Type} (key : Str) (value : V) (m : List (Str × V))
    (e : Str × V) (he : e ∈ (mapEmplace key value m).1) : e = (key, value) ∨ e ∈ m := by
  induction m with
  | nil => simpa [mapEmplace] using he
  | cons x m ih =>
    obtain ⟨k, v⟩ := x
    simp only [mapEmplace] at he
    split_ifs at he with h1 h2
    · simp only [List.mem_cons] at he ⊢
      rcases he with he | he
      · exact Or.inr (Or.inl he)
      · rcases ih he with h | h
        · exact Or.inl h
        · exact Or.inr (Or.inr h)
    · simp only [List.mem_cons] at he ⊢
      rcases he with he | he | he
      · exact Or.inl he
      · exact Or.inr (Or.inl he)
      · exact Or.inr (Or.inr he)
    · exact Or.inr he

theorem mapEmplace_pairwise {V : Type} (key : Str) (value : V) (m : List (Str × V))
    (hm : (m.map Prod.fst).Pairwise (fun a b => strLess a b = true)) :
    ((mapEmplace key value m).1.map Prod.fst).Pairwise (fun a b => strLess a b = true) := by
  induction m with
  | nil => simp [mapEmplace]
  | cons x m ih =>
    obtain ⟨k, v⟩ := x
    simp only [List.map_cons, List.pairwise_cons] at hm
    simp only [mapEmplace]
    split_ifs with h1 h2
    · simp only [List.map_cons, List.pairwise_cons]
      refine ⟨?_, ih hm.2⟩
      intro b hb
      obtain ⟨e, he, rfl⟩ := List.mem_map.mp hb
      rcases mem_mapEmplace key value m e he with h | h
      · rw [h]; exact h1
      · exact hm.1 e.1 (List.mem_map_of_mem Prod.fst h)
    · simp only [List.map_cons, List.pairwise_cons]
      refine ⟨?_, hm.1, hm.2⟩
      intro b hb
      rcases List.mem_cons.mp hb with h | h
      · rw [h]; exact h2
      · exact strLess_trans key k b h2 (hm.1 b h)
    · simp only [List.map_cons, List.pairwise_cons]
      exact hm

theorem mapFind_mem {V : Type} (key : Str) (m : List (Str × V)) (v : V)
    (h : mapFind key m = some v) : (key, v) ∈ m := by
  induction m with
  | nil => simp [mapFind] at h
  | cons x m ih =>
    obtain ⟨k, w⟩ := x
    simp only [mapFind] at h
    split_ifs at h with h1 h2
    · exact List.mem_cons_of_mem _ (ih h)
    · have e : key = k := strLess_total key k (by simpa using h2) (by simpa using h1)
      simp only [Option.some.injEq] at h
      rw [e, h]
      exact List.mem_cons_self _ _

theorem mapFind_isSome_of_mem {V : Type} (key : Str) (m : List (Str × V))
    (hm : (m.map Prod.fst).Pairwise (fun a b => strLess a b = true))
    (h : key ∈ m.map Prod.fst) : (mapFind key m).isSome = true := by
  induction m with
  | nil => simp at h
  | cons x m ih =>
    obtain ⟨k, w⟩ := x
    simp only [List.map_cons, List.pairwise_cons, List.mem_cons] at hm h
    simp only [mapFind]
    rcases h with h | h
    · subst h
      simp [strLess_irrefl]
    · have hk : strLess k key = true := hm.1 key h
      simp [hk, ih hm.2 h]

/-! ### Registration -/

theorem names_eq_map {σ : Type} (r : CommandRegistry σ) :
    r.names = r.commands_.map Prod.fst := by
  have h : ∀ (l : List (Str × Command σ)) (acc : List Str),
      l.foldl (fun values entry => values ++ [entry.1]) acc = acc ++ l.map Prod.fst := by
    intro l
    induction l with
    | nil => intro acc; simp
    | cons e l ih => intro acc; simp [List.foldl_cons, ih]
  simpa [CommandRegistry.names] using h r.commands_ []

theorem add_rejected_of_contains {σ : Type} (r : CommandRegistry σ) (command : Command σ)
    (hc : r.contains command.name = true) : (r.add command).1 = false := by
  unfold CommandRegistry.add
  split_ifs with h
  · rfl
  · unfold CommandRegistry.contains at hc
    simp [mapEmplace_snd, hc]

/-- C5. `add` returns false exactly when the name is empty, the handler is missing, or the
name is already registered; otherwise it returns true and afterwards `contains(name)` holds
and `find(name)` yields the added command. -/
theorem add_result {σ : Type} (r : CommandRegistry σ) (command : Command σ) :
    ((r.add command).1 = false ↔
        (command.name = [] ∨ command.handler.isNone = true ∨
          r.contains command.name = true)) ∧
      ((r.add command).1 = true →
        (r.add command).2.contains command.name = true ∧
          (r.add command).2.find command.name = some command) := by
  unfold CommandRegistry.add CommandRegistry.contains CommandRegistry.find
  by_cases h : command.name = [] ∨ command.handler.isNone = true
  · rw [if_pos h]
    refine ⟨⟨fun _ => ?_, fun _ => rfl⟩, fun hf => by simp at hf⟩
    rcases h with h | h
    · exact Or.inl h
    · exact Or.inr (Or.inl h)
  · rw [if_neg h]
    have h' := not_or.mp h
    simp only [mapEmplace_snd]
    constructor
    · constructor
      · intro hf
        right; right
        simpa using hf
      · intro hf
        rcases hf with hf | hf | hf
        · exact absurd hf h'.1
        · exact absurd hf h'.2
        · simp [hf]
    · intro ht
      have hins : (mapEmplace command.name command r.commands_).2 = true := by
        rw [mapEmplace_snd]; exact ht
      have hfind := mapFind_mapEmplace_self command.name command r.commands_ hins
      simp [hfind]

theorem add_result_witness :
    (helpHelloRegistry.add (plainCommand "Help".toList)).1 = true ∧
      (helpHelloRegistry.add (plainCommand "Help".toList)).2.contains "Help".toList = true ∧
      (helpHelloRegistry.add (plainCommand "Help".toList)).2.find "Help".toList =
        some (plainCommand "Help".toList) ∧
      (helpHelloRegistry.add (plainCommand "help".toList)).1 = false :=
  ⟨by decide,
    ((add_result helpHelloRegistry (plainCommand "Help".toList)).2 (by decide)).1,
    ((add_result helpHelloRegistry (plainCommand "Help".toList)).2 (by decide)).2,
    (add_result helpHelloRegistry (plainCommand "help".toList)).1.mpr
      (Or.inr (Or.inr (by decide)))⟩

/-- C6. Whenever `add` returns false the registry is unchanged (so `find` answers as before
for every name and `names()` is the same); in particular adding a command under a name that
already has a command is rejected and `find` still yields the original command. -/
theorem add_rejected_unchanged {σ : Type} (r : CommandRegistry σ) (command : Command σ) :
    ((r.add command).1 = false →
        (r.add command).2 = r ∧
          (∀ name, (r.add command).2.find name = r.find name) ∧
          (r.add command).2.names = r.names) ∧
      (∀ original, r.find command.name = some original →
        (r.add command).1 = false ∧
          (r.add command).2.find command.name = some original ∧
          (r.add command).2.names = r.names) := by
  have key : (r.add command).1 = false → (r.add command).2 = r := by
    unfold CommandRegistry.add
    split_ifs with h
    · intro _; rfl
    · intro hf
      simp only at hf ⊢
      rw [mapEmplace_fst_of_not_inserted _ _ _ hf]
  refine ⟨fun hf => ?_, fun original ho => ?_⟩
  · rw [key hf]
    exact ⟨rfl, fun _ => rfl, rfl⟩
  · have hc : r.contains command.name = true := by
      unfold CommandRegistry.contains
      unfold CommandRegistry.find at ho
      rw [ho]; rfl
    have hf : (r.add command).1 = false := add_rejected_of_contains r command hc
    rw [key hf]
    exact ⟨hf, ho, rfl⟩

theorem add_rejected_unchanged_witness :
    (helpHelloRegistry.add (plainCommand "help".toList)).2 = helpHelloRegistry ∧
      (helpHelloRegistry.add (plainCommand "help".toList)).2.find "help".toList =
        some (echoCommand "help".toList) ∧
      (helpHelloRegistry.add (plainCommand [])).2 = helpHelloRegistry :=
  ⟨((add_rejected_unchanged helpHelloRegistry (plainCommand "help".toList)).1
      (by decide)).1,
    ((add_rejected_unchanged helpHelloRegistry (plainCommand "help".toList)).2
      (echoCommand "help".toList) rfl).2.1,
    ((add_rejected_unchanged helpHelloRegistry (plainCommand [])).1 (by decide)).1⟩

/-! ### The invariant of reachable registries -/

theorem reachable_inv {σ : Type} (r : CommandRegistry σ) (hr : r.Reachable) :
    (∀ e ∈ r.commands_, e.2.name ≠ [] ∧ e.2.handler.isSome = true ∧ e.1 = e.2.name) ∧
      (r.commands_.map Prod.fst).Pairwise (fun a b => strLess a b = true) := by
  induction hr with
  | empty => simp [CommandRegistry.empty]
  | add r command _ ih =>
    unfold CommandRegistry.add
    split_ifs with h
    · exact ih
    · have h' := not_or.mp h
      refine ⟨fun e he => ?_, mapEmplace_pairwise _ _ _ ih.2⟩
      rcases mem_mapEmplace command.name command r.commands_ e he with he' | he'
      · rw [he']
        refine ⟨h'.1, ?_, rfl⟩
        cases hh : command.handler with
        | none => exact absurd (by simp [hh]) h'.2
        | some _ => rfl
      · exact ih.1 e he'

theorem find_some_of_reachable {σ : Type} (r : CommandRegistry σ) (hr : r.Reachable)
    (name : Str) (command : Command σ) (h : r.find name = some command) :
    command.name = name ∧ command.name ≠ [] ∧ command.handler.isSome = true := by
  have hmem := mapFind_mem name r.commands_ command h
  have := (reachable_inv r hr).1 (name, command) hmem
  exact ⟨this.2.2.symm, this.1, this.2.1⟩

theorem execute_line_isSome_of_reachable {σ : Type} (r : CommandRegistry σ)
    (hr : r.Reachable) (line : Str) (context : CommandContext σ) :
    (r.execute_line line context).isSome = true := by
  unfold CommandRegistry.execute_line
  cases CommandRegistry.tokenize line with
  | nil => rfl
  | cons front others =>
    simp only
    cases hf : r.find front with
    | none => rfl
    | some command =>
      simp only
      have hh := (find_some_of_reachable r hr front command hf).2.2
      cases hc : command.handler with
      | none => simp [hc] at hh
      | some handler => rfl

/-- C7. In every registry reachable from the empty one by `add` calls, every stored command
has a non-empty name and a handler and is stored under its own name; `names()` is strictly
ascending, holds exactly the registered names and holds none of them twice; and
`execute_line` never calls a missing handler (it always returns). -/
theorem reachable_registry_invariant {σ : Type} (r : CommandRegistry σ) (hr : r.Reachable) :
    (∀ e ∈ r.commands_, e.2.name ≠ [] ∧ e.2.handler.isSome = true ∧ e.1 = e.2.name) ∧
      (∀ name command, r.find name = some command →
        command.name = name ∧ command.name ≠ [] ∧ command.handler.isSome = true) ∧
      r.names.Pairwise (fun a b => strLess a b = true) ∧
      (∀ name, r.contains name = true ↔ name ∈ r.names) ∧
      r.names.Nodup ∧
      (∀ line context, (r.execute_line line context).isSome = true) := by
  have hinv := reachable_inv r hr
  have hpw : r.names.Pairwise (fun a b => strLess a b = true) := by
    rw [names_eq_map]; exact hinv.2
  have hnodup : r.names.Nodup := by
    refine List.Pairwise.imp ?_ hpw
    intro a b hab e
    rw [e, strLess_irrefl] at hab
    exact Bool.false_ne_true hab
  have hmem : ∀ name, r.contains name = true ↔ name ∈ r.names := by
    intro name
    rw [names_eq_map]
    constructor
    · intro hc
      unfold CommandRegistry.contains at hc
      obtain ⟨command, hcmd⟩ := Option.isSome_iff_exists.mp hc
      exact List.mem_map.mpr ⟨(name, command), mapFind_mem name _ _ hcmd, rfl⟩
    · intro hn
      exact mapFind_isSome_of_mem name r.commands_ hinv.2 hn
  exact ⟨hinv.1, fun name command h => find_some_of_reachable r hr name command h, hpw, hmem,
    hnodup,
    fun line context => execute_line_isSome_of_reachable r hr line context⟩

theorem helpHelloRegistry_reachable : helpHelloRegistry.Reachable :=
  CommandRegistry.Reachable.add _ _
    (CommandRegistry.Reachable.add _ _ CommandRegistry.Reachable.empty)

theorem reachable_registry_invariant_witness :
    helpHelloRegistry.names = ["hello".toList, "help".toList] ∧
      helpHelloRegistry.names.Pairwise (fun a b => strLess a b = true) ∧
      (∀ line context, (helpHelloRegistry.execute_line line context).isSome = true) :=
  ⟨by decide,
    (reachable_registry_invariant helpHelloRegistry helpHelloRegistry_reachable).2.2.1,
    (reachable_registry_invariant helpHelloRegistry helpHelloRegistry_reachable).2.2.2.2.2⟩

/-! ### Dispatch -/

/-- C8. When the first token of the line is a registered name, `execute_line` returns true
and the context afterwards is the one the handler of that command produces from the incoming
context and the remaining tokens, applied once (whatever the handler is); no other handler
takes part. -/
theorem execute_line_known {σ : Type} (r : CommandRegistry σ) (hr : r.Reachable)
    (line : Str) (context : CommandContext σ) (front : Str) (others : Args)
    (command : Command σ) (htok : CommandRegistry.tokenize line = front :: others)
    (hfind : r.find front = some command) :
    ∃ handler, command.handler = some handler ∧
      r.execute_line line context = some (true, handler others context) := by
  have hh := (find_some_of_reachable r hr front command hfind).2.2
  obtain ⟨handler, hhandler⟩ := Option.isSome_iff_exists.mp hh
  refine ⟨handler, hhandler, ?_⟩
  unfold CommandRegistry.execute_line
  rw [htok]
  simp only [hfind, hhandler]
  cases others with
  | nil => simp
  | cons a others => simp

theorem execute_line_known_witness :
    (∃ handler, (echoCommand "help".toList).handler = some handler ∧
        helpHelloRegistry.execute_line "help  \"a b\" c".toList freshContext =
          some (true, handler ["a b".toList, "c".toList] freshContext)) ∧
      helpHelloRegistry.execute_line "help  \"a b\" c".toList freshContext =
        some (true, { console := [ConsoleCall.println "help:a b, c".toList],
                      running := true, world := () }) ∧
      helpHelloRegistry.execute_line "hello".toList freshContext =
        some (true, { console := [ConsoleCall.println "hello:".toList],
                      running := true, world := () }) :=
  ⟨execute_line_known helpHelloRegistry helpHelloRegistry_reachable
      "help  \"a b\" c".toList freshContext "help".toList ["a b".toList, "c".toList]
      (echoCommand "help".toList) (by decide) rfl,
    by decide, by decide⟩

theorem suggestions_eq_filter {σ : Type} (r : CommandRegistry σ) (front : Str) :
    r.commands_.foldl
        (fun suggestions entry =>
          if starts_with entry.1 front then suggestions ++ [entry.1] else suggestions)
        [] =
      r.names.filter (fun name => starts_with name front) := by
  have h : ∀ (l : List (Str × Command σ)) (acc : List Str),
      l.foldl
          (fun suggestions entry =>
            if starts_with entry.1 front then suggestions ++ [entry.1] else suggestions)
          acc =
        acc ++ (l.map Prod.fst).filter (fun name => starts_with name front) := by
    intro l
    induction l with
    | nil => intro acc; simp
    | cons e l ih =>
      intro acc
      by_cases hs : starts_with e.1 front = true
      · simp [List.foldl_cons, ih, hs, List.filter_cons]
      · simp [List.foldl_cons, ih, hs, List.filter_cons]
  rw [names_eq_map]
  simpa using h r.commands_ []

/-- C9. When the first token `t` of the line is not a registered name, `execute_line` returns
false, calls no handler (only the console changes), prints `Unknown command: t`, and then
prints as possible matches exactly the registered names of which `t` is a prefix, or nothing
when there is none. With `help` and `hello` registered, `he` reports both and fails. -/
theorem execute_line_unknown {σ : Type} (r : CommandRegistry σ) (line : Str)
    (context : CommandContext σ) (front : Str) (others : Args)
    (htok : CommandRegistry.tokenize line = front :: others) (hfind : r.find front = none) :
    r.execute_line line context =
        some (false,
          { context with
            console := context.console ++
              ConsoleCall.println_color ("Unknown command: ".toList ++ front) Color.BrightRed ::
                (if r.names.filter (fun name => starts_with name front) = [] then []
                else [ConsoleCall.println ("Possible matches: ".toList ++
                  join_with_commas (r.names.filter (fun name => starts_with name front)))]) }) ∧
      (∀ name, name ∈ r.names.filter (fun name => starts_with name front) ↔
        name ∈ r.names ∧ front <+: name) ∧
      helpHelloRegistry.execute_line "he".toList freshContext =
        some (false,
          { console := [ConsoleCall.println_color "Unknown command: he".toList Color.BrightRed,
              ConsoleCall.println "Possible matches: hello, help".toList],
            running := true, world := () }) := by
  refine ⟨?_, ?_, by decide⟩
  · unfold CommandRegistry.execute_line
    rw [htok]
    simp only [hfind, suggestions_eq_filter]
    by_cases hs : r.names.filter (fun name => starts_with name front) = []
    · simp [hs, CommandContext.println_color]
    · simp [hs, CommandContext.println_color, CommandContext.println]
  · intro name
    simp [List.mem_filter, starts_with]

theorem execute_line_unknown_witness :
    helpHelloRegistry.execute_line "hex 1".toList freshContext =
      some (false,
        { console := [ConsoleCall.println_color "Unknown command: hex".toList Color.BrightRed],
          running := true, world := () }) := by
  have h := (execute_line_unknown helpHelloRegistry "hex 1".toList freshContext "hex".toList
    ["1".toList] (by decide) rfl).1
  rw [h]
  decide

/-- C10. A line whose token sequence is empty is a no-op success: `execute_line` returns true
and leaves the context (console included) as it was, calling no handler. The empty line, every
line of whitespace only, and the line `""` have an empty token sequence. -/
theorem execute_line_empty {σ : Type} (r : CommandRegistry σ) (line : Str)
    (context : CommandContext σ) (htok : CommandRegistry.tokenize line = []) :
    r.execute_line line context = some (true, context) ∧
      CommandRegistry.tokenize [] = [] ∧
      (∀ blank : Str, (∀ ch ∈ blank, isspace ch = true) → CommandRegistry.tokenize blank = []) ∧
      CommandRegistry.tokenize ['"', '"'] = [] := by
  refine ⟨?_, by decide, ?_, by decide⟩
  · unfold CommandRegistry.execute_line
    rw [htok]
  · intro blank hb
    have h : ∀ (l : Str), (∀ ch ∈ l, isspace ch = true) →
        tokenizeLoop l { tokens := [], current := [], quote := '\x00' } =
          { tokens := [], current := [], quote := '\x00' } := by
      intro l
      induction l with
      | nil => intro _; rfl
      | cons c l ih =>
        intro hl
        have hc : isspace c = true := hl c (List.mem_cons_self c l)
        have hne : c ≠ '\x5c' := by
          intro e; rw [e] at hc; simp [isspace] at hc
        have hq1 : c ≠ '"' := by
          intro e; rw [e] at hc; simp [isspace] at hc
        have hq2 : c ≠ '\x27' := by
          intro e; rw [e] at hc; simp [isspace] at hc
        rw [tokenizeLoop_cons_of_ne c l _ hne]
        have e1 : tokenizeChar { tokens := [], current := [], quote := '\x00' } c =
            { tokens := [], current := [], quote := '\x00' } := by
          simp [tokenizeChar, hc, hq1, hq2]
        rw [e1]
        exact ih (fun ch hch => hl ch (List.mem_cons_of_mem c hch))
    unfold CommandRegistry.tokenize
    rw [h blank hb]
    rfl

theorem execute_line_empty_witness :
    helpHelloRegistry.execute_line " \t ".toList freshContext = some (true, freshContext) ∧
      helpHelloRegistry.execute_line "\"\"".toList freshContext = some (true, freshContext) :=
  ⟨(execute_line_empty helpHelloRegistry " \t ".toList freshContext (by decide)).1,
    (execute_line_empty helpHelloRegistry "\"\"".toList freshContext (by decide)).1⟩

/-! ### Completion of command names -/

theorem foldl_push_eq_map {α β : Type} (f : α → β) (l : List α) (acc : List β) :
    l.foldl (fun out x => out ++ [f x]) acc = acc ++ l.map f := by
  induction l generalizing acc with
  | nil => simp
  | cons x l ih => simp [List.foldl_cons, ih]

theorem foldl_push_if_eq_filter_map {α β : Type} (p : α → Bool) (f : α → β) (l : List α)
    (acc : List β) :
    l.foldl (fun out x => if p x then out ++ [f x] else out) acc =
      acc ++ (l.filter p).map f := by
  induction l generalizing acc with
  | nil => simp
  | cons x l ih =>
    by_cases hp : p x = true
    · simp [List.foldl_cons, ih, hp, List.filter_cons]
    · simp [List.foldl_cons, ih, hp, List.filter_cons]

theorem complete_of_no_token {σ : Type} (r : CommandRegistry σ) (buffer : Str)
    (htok : split_for_completion buffer = []) :
    r.complete buffer = r.names.map (fun name => name ++ [' ']) := by
  unfold CommandRegistry.complete
  rw [htok]
  simpa using foldl_push_eq_map (fun name : Str => name ++ [' ']) r.names []

theorem complete_of_one_token {σ : Type} (r : CommandRegistry σ) (buffer token : Str)
    (htok : split_for_completion buffer = [token]) (hts : trailing_space buffer = false) :
    r.complete buffer =
      (r.names.filter (fun name => starts_with name token)).map (fun name => name ++ [' ']) := by
  unfold CommandRegistry.complete
  rw [htok]
  simp only [List.length_singleton, hts, and_self, if_true]
  have h := foldl_push_if_eq_filter_map (fun e : Str × Command σ => starts_with e.1 token)
    (fun e => e.1 ++ [' ']) r.commands_ []
  rw [h, names_eq_map]
  simp [List.filter_map, List.map_map, Function.comp_def]

theorem mem_names_iff_contains {σ : Type} (r : CommandRegistry σ) (hr : r.Reachable)
    (name : Str) : name ∈ r.names ↔ r.contains name = true := by
  rw [names_eq_map]
  constructor
  · intro hn
    exact mapFind_isSome_of_mem name r.commands_ (reachable_inv r hr).2 hn
  · intro hc
    unfold CommandRegistry.contains at hc
    obtain ⟨command, hcmd⟩ := Option.isSome_iff_exists.mp hc
    exact List.mem_map.mpr ⟨(name, command), mapFind_mem name _ _ hcmd, rfl⟩

/-- C11. `complete("")` is the list of the registered names, each followed by one space: it
has one entry per registered command, and on a registry built by `add` calls its entries are
exactly the strings `name + " "` for the names `contains` accepts. -/
theorem complete_empty_buffer {σ : Type} (r : CommandRegistry σ) :
    r.complete [] = r.names.map (fun name => name ++ [' ']) ∧
      (r.complete []).length = r.commands_.length ∧
      (r.Reachable → ∀ candidate, candidate ∈ r.complete [] ↔
        ∃ name, r.contains name = true ∧ candidate = name ++ [' ']) := by
  have h := complete_of_no_token r [] rfl
  refine ⟨h, ?_, fun hr candidate => ?_⟩
  · rw [h, names_eq_map]; simp
  · rw [h, List.mem_map]
    constructor
    · rintro ⟨name, hn, rfl⟩
      exact ⟨name, (mem_names_iff_contains r hr name).mp hn, rfl⟩
    · rintro ⟨name, hc, rfl⟩
      exact ⟨name, (mem_names_iff_contains r hr name).mpr hc, rfl⟩

theorem complete_empty_buffer_witness :
    helpHelloRegistry.complete [] = ["hello ".toList, "help ".toList] ∧
      (∀ candidate, candidate ∈ helpHelloRegistry.complete [] ↔
        ∃ name, helpHelloRegistry.contains name = true ∧ candidate = name ++ [' ']) :=
  ⟨by decide, (complete_empty_buffer helpHelloRegistry).2.2 helpHelloRegistry_reachable⟩

/-- C12. For a buffer that holds exactly one token and does not end in whitespace, `complete`
returns `name + " "` for exactly the registered names that begin with the token, in the order
of `names()`; with `help` and `hello` registered, `complete("he")` is `hello ` and `help `. -/
theorem complete_command_name {σ : Type} (r : CommandRegistry σ) (buffer token : Str)
    (htok : split_for_completion buffer = [token]) (hts : trailing_space buffer = false) :
    r.complete buffer =
        (r.names.filter (fun name => starts_with name token)).map
          (fun name => name ++ [' ']) ∧
      (∀ candidate, candidate ∈ r.complete buffer ↔
        ∃ name, name ∈ r.names ∧ token <+: name ∧ candidate = name ++ [' ']) ∧
      (∀ candidate, candidate ∈ helpHelloRegistry.complete "he".toList ↔
        candidate = "help ".toList ∨ candidate = "hello ".toList) := by
  have h := complete_of_one_token r buffer token htok hts
  refine ⟨h, fun candidate => ?_, fun candidate => ?_⟩
  · rw [h]
    simp only [List.mem_map, List.mem_filter, starts_with, List.isPrefixOf_iff_prefix]
    constructor
    · rintro ⟨name, ⟨hn, hp⟩, rfl⟩
      exact ⟨name, hn, hp, rfl⟩
    · rintro ⟨name, hn, hp, rfl⟩
      exact ⟨name, ⟨hn, hp⟩, rfl⟩
  · have e : helpHelloRegistry.complete "he".toList = ["hello ".toList, "help ".toList] := by
      decide
    rw [e]
    simp only [List.mem_cons, List.mem_singleton, List.not_mem_nil, or_false]
    exact Or.comm

theorem complete_command_name_witness :
    helpHelloRegistry.complete "  hell".toList = ["hello ".toList] :=
  (complete_command_name helpHelloRegistry "  hell".toList "hell".toList (by decide)
    (by decide)).1.trans (by decide)

/-- C13, as stated, fails. With `help` and `hello` registered, `help` is a prefix of the one
token of the buffer `helpx` and is not completed, while for the buffer `he` both names are
completed although neither is a prefix of `he`. -/
theorem complete_not_names_that_are_prefixes :
    (split_for_completion "helpx".toList = ["helpx".toList] ∧
        trailing_space "helpx".toList = false ∧
        "help".toList ∈ helpHelloRegistry.names ∧
        "help".toList <+: "helpx".toList ∧
        "help ".toList ∉ helpHelloRegistry.complete "helpx".toList) ∧
      (split_for_completion "he".toList = ["he".toList] ∧
        trailing_space "he".toList = false ∧
        "help ".toList ∈ helpHelloRegistry.complete "he".toList ∧
        ¬ "help".toList <+: "he".toList) := by
  decide

/-- C13, amended. For a buffer that holds exactly one token and does not end in whitespace,
`complete` returns `name + " "` for every registered name that has the token as a prefix and
only for those; a registered name that is a prefix of the token without being the token is
not returned. -/
theorem complete_names_starting_with_token {σ : Type} (r : CommandRegistry σ)
    (buffer token : Str) (htok : split_for_completion buffer = [token])
    (hts : trailing_space buffer = false) :
    (∀ name, name ∈ r.names → (name ++ [' '] ∈ r.complete buffer ↔ token <+: name)) ∧
      (∀ candidate, candidate ∈ r.complete buffer →
        ∃ name, name ∈ r.names ∧ token <+: name ∧ candidate = name ++ [' ']) ∧
      (∀ name, name ∈ r.names → name <+: token → name ≠ token →
        name ++ [' '] ∉ r.complete buffer) := by
  have h := complete_of_one_token r buffer token htok hts
  have hmem : ∀ name, name ++ [' '] ∈ r.complete buffer ↔ name ∈ r.names ∧ token <+: name := by
    intro name
    rw [h]
    simp only [List.mem_map, List.mem_filter, starts_with, List.isPrefixOf_iff_prefix]
    constructor
    · rintro ⟨other, ⟨hn, hp⟩, he⟩
      have e : other = name := List.append_cancel_right he
      rw [← e]
      exact ⟨hn, hp⟩
    · rintro ⟨hn, hp⟩
      exact ⟨name, ⟨hn, hp⟩, rfl⟩
  refine ⟨fun name hn => ?_, fun candidate hc => ?_, fun name _ hpre hne hc => ?_⟩
  · rw [hmem]
    exact ⟨fun hh => hh.2, fun hh => ⟨hn, hh⟩⟩
  · rw [h] at hc
    simp only [List.mem_map, List.mem_filter, starts_with, List.isPrefixOf_iff_prefix] at hc
    obtain ⟨name, ⟨hn, hp⟩, rfl⟩ := hc
    exact ⟨name, hn, hp, rfl⟩
  · have hp := ((hmem name).mp hc).2
    have hlen1 := hpre.length_le
    have hlen2 := hp.length_le
    exact hne (hpre.eq_of_length (le_antisymm hlen1 hlen2))

theorem complete_names_starting_with_token_witness :
    ("hello ".toList ∈ helpHelloRegistry.complete "hell".toList ↔
        "hell".toList <+: "hello".toList) ∧
      "help ".toList ∉ helpHelloRegistry.complete "helpx".toList :=
  ⟨(complete_names_starting_with_token helpHelloRegistry "hell".toList "hell".toList
      (by decide) (by decide)).1 "hello".toList (by decide),
    (complete_names_starting_with_token helpHelloRegistry "helpx".toList "helpx".toList
      (by decide) (by decide)).2.2 "help".toList (by decide) (by decide) (by decide)⟩

/-! ### Completion of arguments -/

/-- C16. For a buffer with more than one token, or with one token followed by whitespace:
when the first token is not a registered name, or names a command without completer,
`complete` returns no candidate (the result does not depend on any completer). -/
theorem complete_without_completer {σ : Type} (r : CommandRegistry σ) (buffer front : Str)
    (others : List Str) (htok : split_for_completion buffer = front :: others)
    (hrule : others ≠ [] ∨ trailing_space buffer = true)
    (hno : r.find front = none ∨
      ∃ command, r.find front = some command ∧ command.completer = none) :
    r.complete buffer = [] := by
  unfold CommandRegistry.complete
  rw [htok]
  have hcond : ¬ ((front :: others).length = 1 ∧ trailing_space buffer = false) := by
    rintro ⟨hl, ht⟩
    rcases hrule with h | h
    · cases others with
      | nil => exact h rfl
      | cons a others => simp at hl
    · rw [h] at ht; exact Bool.noConfusion ht
  simp only [hcond, if_false]
  rcases hno with h | ⟨command, h, hc⟩
  · simp [h]
  · simp [h, hc]

theorem complete_without_completer_witness :
    helpHelloRegistry.complete "help ".toList = [] ∧
      helpHelloRegistry.complete "nothing here".toList = [] :=
  ⟨complete_without_completer helpHelloRegistry "help ".toList "help".toList [] (by decide)
      (Or.inr (by decide)) (Or.inr ⟨echoCommand "help".toList, rfl, rfl⟩),
    complete_without_completer helpHelloRegistry "nothing here".toList "nothing".toList
      ["here".toList] (by decide) (Or.inl (by decide)) (Or.inl rfl)⟩

theorem join_with_spaces_loop (l : List Str) (n : Nat) (acc : Str) :
    (l.enumFrom (n + 1)).foldl
        (fun output entry => (if entry.1 ≠ 0 then output ++ [' '] else output) ++ entry.2) acc =
      acc ++ (l.map (fun value => ' ' :: value)).flatten := by
  induction l generalizing n acc with
  | nil => simp
  | cons v l ih =>
    simp only [List.enumFrom_cons, List.foldl_cons, List.map_cons, List.flatten_cons]
    rw [ih]
    simp

theorem intercalate_cons (sep v : Str) (l : List Str) :
    sep.intercalate (v :: l) = v ++ (l.map (fun value => sep ++ value)).flatten := by
  induction l generalizing v with
  | nil => simp [List.intercalate]
  | cons w l ih =>
    have h := ih w
    simp only [List.intercalate] at h ⊢
    simp only [List.intersperse, List.flatten_cons, List.map_cons] at h ⊢
    rw [h]
    simp

theorem join_with_spaces_eq_intercalate (values : Args) :
    join_with_spaces values = [' '].intercalate values := by
  cases values with
  | nil => rfl
  | cons v l =>
    rw [intercalate_cons]
    unfold join_with_spaces
    simp only [List.enum, List.enumFrom_cons, List.foldl_cons]
    have h := join_with_spaces_loop l 0 ([] ++ v)
    simp only [Nat.zero_add] at h
    simpa using h

/-! ### Sorting and removing repetitions -/

theorem strLess_of_lt_of_not_lt (a b c : Str) (hab : strLess a b = true)
    (hcb : strLess c b = false) : strLess a c = true := by
  by_cases hac : strLess a c = true
  · exact hac
  · have hac' : strLess a c = false := by simpa using hac
    by_cases hca : strLess c a = true
    · have := strLess_trans c a b hca hab
      rw [this] at hcb
      exact Bool.noConfusion hcb
    · have hca' : strLess c a = false := by simpa using hca
      have e := strLess_total a c hac' hca'
      rw [e] at hab
      rw [hab] at hcb
      exact Bool.noConfusion hcb

theorem mem_sortInsert (a x : Str) (l : List Str) : a ∈ sortInsert x l ↔ a = x ∨ a ∈ l := by
  induction l with
  | nil => simp [sortInsert]
  | cons y l ih =>
    simp only [sortInsert]
    split_ifs with h
    · simp only [List.mem_cons, ih]
      tauto
    · simp only [List.mem_cons]

theorem mem_ranges_sort (a : Str) (l : List Str) : a ∈ ranges_sort l ↔ a ∈ l := by
  induction l with
  | nil => simp [ranges_sort]
  | cons x l ih =>
    have e : ranges_sort (x :: l) = sortInsert x (ranges_sort l) := rfl
    rw [e, mem_sortInsert, ih, List.mem_cons]

theorem sortInsert_ascending (x : Str) (l : List Str)
    (hl : l.Pairwise (fun a b => strLess b a = false)) :
    (sortInsert x l).Pairwise (fun a b => strLess b a = false) := by
  induction l with
  | nil => simp [sortInsert]
  | cons y l ih =>
    rw [List.pairwise_cons] at hl
    simp only [sortInsert]
    split_ifs with h
    · rw [List.pairwise_cons]
      refine ⟨fun b hb => ?_, ih hl.2⟩
      rcases (mem_sortInsert b x l).mp hb with hb | hb
      · rw [hb]; exact strLess_asymm y x h
      · exact hl.1 b hb
    · have hyx : strLess y x = false := by simpa using h
      rw [List.pairwise_cons, List.pairwise_cons]
      refine ⟨fun b hb => ?_, hl.1, hl.2⟩
      rcases List.mem_cons.mp hb with hb | hb
      · rw [hb]; exact hyx
      · by_cases hbx : strLess b x = true
        · have := strLess_of_lt_of_not_lt b x y hbx hyx
          rw [hl.1 b hb] at this
          exact Bool.noConfusion this
        · simpa using hbx

theorem ranges_sort_ascending (l : List Str) :
    (ranges_sort l).Pairwise (fun a b => strLess b a = false) := by
  induction l with
  | nil => simp [ranges_sort]
  | cons x l ih => exact sortInsert_ascending x (ranges_sort l) ih

theorem mem_ranges_unique_cons (a : Str) (l : List Str) (x : Str) :
    a ∈ ranges_unique (x :: l) ↔ a = x ∨ a ∈ l := by
  induction l generalizing x with
  | nil => simp [ranges_unique]
  | cons y l ih =>
    simp only [ranges_unique]
    split_ifs with h
    · rw [ih y, List.mem_cons, h]
      tauto
    · rw [List.mem_cons, ih y, List.mem_cons]

theorem mem_ranges_unique (a : Str) (l : List Str) : a ∈ ranges_unique l ↔ a ∈ l := by
  cases l with
  | nil => simp [ranges_unique]
  | cons x l => rw [mem_ranges_unique_cons, List.mem_cons]

theorem ranges_unique_strictly_ascending (l : List Str) (x : Str)
    (hl : (x :: l).Pairwise (fun a b => strLess b a = false)) :
    (ranges_unique (x :: l)).Pairwise (fun a b => strLess a b = true) := by
  induction l generalizing x with
  | nil => simp [ranges_unique]
  | cons y l ih =>
    rw [List.pairwise_cons] at hl
    simp only [ranges_unique]
    split_ifs with h
    · exact ih y hl.2
    · rw [List.pairwise_cons]
      refine ⟨fun b hb => ?_, ih y hl.2⟩
      have hb' : b ∈ y :: l := (mem_ranges_unique b (y :: l)).mp hb
      have hyx : strLess y x = false := hl.1 y (List.mem_cons_self y l)
      have hxy : strLess x y = true := by
        by_cases hh : strLess x y = true
        · exact hh
        · exact absurd (strLess_total x y (by simpa using hh) hyx) h
      rcases List.mem_cons.mp hb' with hby | hbl
      · rw [hby]; exact hxy
      · have hby : strLess b y = false := (List.pairwise_cons.mp hl.2).1 b hbl
        exact strLess_of_lt_of_not_lt x y b hxy hby

theorem ranges_unique_sort_spec (l : List Str) :
    (ranges_unique (ranges_sort l)).Pairwise (fun a b => strLess a b = true) ∧
      ∀ a, a ∈ ranges_unique (ranges_sort l) ↔ a ∈ l := by
  constructor
  · cases hs : ranges_sort l with
    | nil => simp [ranges_unique]
    | cons x rest =>
      apply ranges_unique_strictly_ascending
      rw [← hs]
      exact ranges_sort_ascending l
  · intro a
    rw [mem_ranges_unique, mem_ranges_sort]

theorem completion_lines_spec (command_name : Str) (stable_args : Args)
    (suggestions : List Str) :
    (completion_lines command_name stable_args suggestions).Pairwise
        (fun a b => strLess a b = true) ∧
      ∀ line, line ∈ completion_lines command_name stable_args suggestions ↔
        ∃ suggestion, suggestion ∈ suggestions ∧
          line = (command_name ++ [' '] ++
            (if stable_args ≠ [] then join_with_spaces stable_args ++ [' '] else [])) ++
            suggestion := by
  unfold completion_lines
  by_cases h : suggestions = []
  · rw [if_pos h]
    simp [h]
  · rw [if_neg h]
    refine ⟨(ranges_unique_sort_spec _).1, fun line => ?_⟩
    rw [(ranges_unique_sort_spec _).2 line, List.mem_map]
    constructor
    · rintro ⟨s, hs, rfl⟩
      exact ⟨s, hs, rfl⟩
    · rintro ⟨s, hs, rfl⟩
      exact ⟨s, hs, rfl⟩

/-! ### What the completer receives and what `complete` makes of its answer -/

theorem completion_args_of_rule (front : Str) (others : List Str) (trailing : Bool)
    (hrule : others ≠ [] ∨ trailing = true) :
    (trailing = true → completion_args (front :: others) trailing = ([], others)) ∧
      (trailing = false →
        others = (completion_args (front :: others) trailing).2 ++
          [(completion_args (front :: others) trailing).1]) := by
  constructor
  · intro ht
    subst ht
    cases others with
    | nil => simp [completion_args]
    | cons a rest => simp [completion_args]
  · intro ht
    subst ht
    have hne : others ≠ [] := by
      rcases hrule with h | h
      · exact h
      · exact Bool.noConfusion h
    cases others with
    | nil => exact absurd rfl hne
    | cons a rest =>
      cases rest with
      | nil => simp [completion_args]
      | cons b rest =>
        have e : (a :: b :: rest).dropLast ++ [(a :: b :: rest).getLast (by simp)] =
            a :: b :: rest := List.dropLast_append_getLast _
        simp only [completion_args, List.length_cons, List.drop_succ_cons, List.drop_zero]
        simp only [List.getLast?_cons_cons, List.getLast?_eq_getLast _ (List.cons_ne_nil b rest),
          Option.getD_some]
        simp only [List.getLast_cons (List.cons_ne_nil b rest)] at e
        simpa using e.symm

theorem complete_eq_completion_lines {σ : Type} (r : CommandRegistry σ) (buffer front : Str)
    (others : List Str) (command : Command σ) (completer : CompletionHandler)
    (htok : split_for_completion buffer = front :: others)
    (hrule : others ≠ [] ∨ trailing_space buffer = true)
    (hfind : r.find front = some command) (hcomp : command.completer = some completer) :
    r.complete buffer =
      completion_lines front (completion_args (front :: others) (trailing_space buffer)).2
        (completer (completion_args (front :: others) (trailing_space buffer)).1
          (completion_args (front :: others) (trailing_space buffer)).2) := by
  unfold CommandRegistry.complete
  rw [htok]
  have hcond : ¬ ((front :: others).length = 1 ∧ trailing_space buffer = false) := by
    rintro ⟨hl, ht⟩
    rcases hrule with h | h
    · cases others with
      | nil => exact h rfl
      | cons a others => simp at hl
    · rw [h] at ht; exact Bool.noConfusion ht
  simp only [hcond, if_false, hfind, hcomp]

/-- C14. For a buffer with more than one token, or with one token followed by whitespace,
whose first token names a registered command with a completer: the result of `complete` is
built from the answer of that completer to (partial, stable_args), where for a buffer ending in
whitespace the partial token is empty and stable_args is all tokens after the command name,
and otherwise the tokens after the command name are stable_args followed by the partial
token. -/
theorem complete_completer_request {σ : Type} (r : CommandRegistry σ) (buffer front : Str)
    (others : List Str) (command : Command σ) (completer : CompletionHandler)
    (htok : split_for_completion buffer = front :: others)
    (hrule : others ≠ [] ∨ trailing_space buffer = true)
    (hfind : r.find front = some command) (hcomp : command.completer = some completer) :
    ∃ (part : Str) (stable : Args),
      (trailing_space buffer = true → part = [] ∧ stable = others) ∧
        (trailing_space buffer = false → others = stable ++ [part]) ∧
        r.complete buffer = completion_lines front stable (completer part stable) := by
  have hargs := completion_args_of_rule front others (trailing_space buffer) hrule
  refine ⟨(completion_args (front :: others) (trailing_space buffer)).1,
    (completion_args (front :: others) (trailing_space buffer)).2, fun ht => ?_, hargs.2,
    complete_eq_completion_lines r buffer front others command completer htok hrule hfind
      hcomp⟩
  rw [hargs.1 ht]
  exact ⟨rfl, rfl⟩

theorem complete_completer_request_witness :
    ∃ (part : Str) (stable : Args),
      (trailing_space "trace a bc".toList = true →
          part = [] ∧ stable = ["a".toList, "bc".toList]) ∧
        (trailing_space "trace a bc".toList = false →
          ["a".toList, "bc".toList] = stable ++ [part]) ∧
        traceRegistry.complete "trace a bc".toList =
          completion_lines "trace".toList stable (traceCompleter part stable) :=
  complete_completer_request traceRegistry "trace a bc".toList "trace".toList
    ["a".toList, "bc".toList] traceCommand traceCompleter (by decide) (Or.inl (by decide))
    rfl rfl

/-- C15. Under the conditions of C14, with `part` and `stable` the partial token and the
stable arguments: `complete` returns a strictly ascending list (hence sorted and without
duplicates) whose entries are exactly the lines `command_name + " " + suggestion` when
`stable` is empty and `command_name + " " + stable joined by single spaces + " " +
suggestion` otherwise, for the suggestions the completer answers. With the `trace` command,
`complete("trace o")` is `trace off`, `trace on`. -/
theorem complete_argument_lines {σ : Type} (r : CommandRegistry σ) (buffer front : Str)
    (others : List Str) (command : Command σ) (completer : CompletionHandler)
    (part : Str) (stable : Args)
    (htok : split_for_completion buffer = front :: others)
    (hrule : others ≠ [] ∨ trailing_space buffer = true)
    (hfind : r.find front = some command) (hcomp : command.completer = some completer)
    (hsplit : if trailing_space buffer = true then part = [] ∧ stable = others
      else others = stable ++ [part]) :
    (r.complete buffer).Pairwise (fun a b => strLess a b = true) ∧
      (∀ line, line ∈ r.complete buffer ↔
        ∃ suggestion, suggestion ∈ completer part stable ∧
          line = front ++ [' '] ++
            (if stable = [] then [] else [' '].intercalate stable ++ [' ']) ++ suggestion) ∧
      traceRegistry.complete "trace o".toList = ["trace off".toList, "trace on".toList] := by
  have hargs := completion_args_of_rule front others (trailing_space buffer) hrule
  have hc := complete_eq_completion_lines r buffer front others command completer htok hrule
    hfind hcomp
  have hpair : completion_args (front :: others) (trailing_space buffer) = (part, stable) := by
    by_cases ht : trailing_space buffer = true
    · rw [if_pos ht] at hsplit
      rw [hargs.1 ht, hsplit.1, hsplit.2]
    · rw [if_neg ht] at hsplit
      have h2 := hsplit.symm.trans (hargs.2 (by simpa using ht))
      have h3 := List.append_inj' h2 rfl
      have h4 : part = (completion_args (front :: others) (trailing_space buffer)).1 := by
        simpa using h3.2
      exact Prod.ext h4.symm h3.1.symm
  rw [hpair] at hc
  simp only at hc
  have hspec := completion_lines_spec front stable (completer part stable)
  rw [← hc] at hspec
  refine ⟨hspec.1, fun line => ?_, by decide⟩
  rw [hspec.2 line, join_with_spaces_eq_intercalate]
  by_cases hs : stable = []
  · simp [hs]
  · simp [hs]

theorem complete_argument_lines_witness :
    (traceRegistry.complete "trace ".toList).Pairwise (fun a b => strLess a b = true) ∧
      (∀ line, line ∈ traceRegistry.complete "trace ".toList ↔
        ∃ suggestion, suggestion ∈ traceCompleter [] [] ∧
          line = "trace".toList ++ [' '] ++
            (if ([] : Args) = [] then [] else [' '].intercalate [] ++ [' ']) ++ suggestion) :=
  ⟨(complete_argument_lines traceRegistry "trace ".toList "trace".toList [] traceCommand
      traceCompleter [] [] (by decide) (Or.inr (by decide)) rfl rfl (by decide)).1,
    (complete_argument_lines traceRegistry "trace ".toList "trace".toList [] traceCommand
      traceCompleter [] [] (by decide) (Or.inr (by decide)) rfl rfl (by decide)).2.1⟩

/-! ### The keystroke loop of the line editor -/

theorem read_line_loop_cons_reading (prompt : Str) (completion_provider : Str → List Str)
    (key : Char) (keys : List Char) (buffer output buffer1 written : Str)
    (h : read_line_key prompt completion_provider buffer output key =
      KeyStep.reading buffer1 written) :
    read_line_loop prompt completion_provider (key :: keys) buffer output =
      read_line_loop prompt completion_provider keys buffer1 written := by
  simp only [read_line_loop, h]

theorem read_line_loop_cons_returned (prompt : Str) (completion_provider : Str → List Str)
    (key : Char) (keys : List Char) (buffer output : Str) (result : Option Str)
    (written : Str)
    (h : read_line_key prompt completion_provider buffer output key =
      KeyStep.returned result written) :
    read_line_loop prompt completion_provider (key :: keys) buffer output =
      (result, written) := by
  simp only [read_line_loop, h]

theorem read_line_loop_submit_cr (prompt : Str) (completion_provider : Str → List Str)
    (keys : List Char) (buffer output : Str) :
    read_line_loop prompt completion_provider ('\r' :: keys) buffer output =
      (some buffer, output ++ ['\n']) := by
  have h : read_line_key prompt completion_provider buffer output '\r' =
      KeyStep.returned (some buffer) (output ++ ['\n']) := by
    simp [read_line_key]
  exact read_line_loop_cons_returned _ _ _ keys _ _ _ _ h

/-- C17. A tab key asks the completion provider about the buffer; with exactly one candidate
the buffer becomes that candidate, with none or with two or more it stays as it is; in all
three cases `read_line` does not return but reads the keys that follow with that buffer: a
carriage return right after the tab returns the candidate, respectively the unchanged
buffer, as the line. -/
theorem read_line_tab (prompt : Str) (completion_provider : Str → List Str)
    (buffer output : Str) (keys : List Char) :
    (completion_provider buffer = [] →
        read_line_key prompt completion_provider buffer output '\t' =
            KeyStep.reading buffer (output ++ ['\x07']) ∧
          read_line_loop prompt completion_provider ('\t' :: keys) buffer output =
            read_line_loop prompt completion_provider keys buffer (output ++ ['\x07']) ∧
          read_line_loop prompt completion_provider ('\t' :: '\r' :: keys) buffer output =
            (some buffer, output ++ ['\x07'] ++ ['\n'])) ∧
      (∀ candidate, completion_provider buffer = [candidate] →
        read_line_key prompt completion_provider buffer output '\t' =
            KeyStep.reading candidate (redraw prompt candidate output) ∧
          read_line_loop prompt completion_provider ('\t' :: keys) buffer output =
            read_line_loop prompt completion_provider keys candidate
              (redraw prompt candidate output) ∧
          read_line_loop prompt completion_provider ('\t' :: '\r' :: keys) buffer output =
            (some candidate, redraw prompt candidate output ++ ['\n'])) ∧
      (2 ≤ (completion_provider buffer).length →
        read_line_key prompt completion_provider buffer output '\t' =
            KeyStep.reading buffer
              (redraw prompt buffer (print_candidates (completion_provider buffer) output)) ∧
          read_line_loop prompt completion_provider ('\t' :: keys) buffer output =
            read_line_loop prompt completion_provider keys buffer
              (redraw prompt buffer (print_candidates (completion_provider buffer) output)) ∧
          read_line_loop prompt completion_provider ('\t' :: '\r' :: keys) buffer output =
            (some buffer,
              redraw prompt buffer (print_candidates (completion_provider buffer) output) ++
                ['\n'])) ∧
      ∃ written,
        read_line_loop prompt completion_provider ('\t' :: keys) buffer output =
          read_line_loop prompt completion_provider keys
            (match completion_provider buffer with
              | [candidate] => candidate
              | _ => buffer)
            written := by
  have h0 : completion_provider buffer = [] →
      read_line_key prompt completion_provider buffer output '\t' =
        KeyStep.reading buffer (output ++ ['\x07']) := by
    intro h
    simp [read_line_key, h]
  have h1 : ∀ candidate, completion_provider buffer = [candidate] →
      read_line_key prompt completion_provider buffer output '\t' =
        KeyStep.reading candidate (redraw prompt candidate output) := by
    intro candidate h
    simp [read_line_key, h]
  have h2 : 2 ≤ (completion_provider buffer).length →
      read_line_key prompt completion_provider buffer output '\t' =
        KeyStep.reading buffer
          (redraw prompt buffer (print_candidates (completion_provider buffer) output)) := by
    intro h
    have hne : completion_provider buffer ≠ [] := by
      intro e; rw [e] at h; simp at h
    have hlen : (completion_provider buffer).length ≠ 1 := by omega
    simp [read_line_key, hne, hlen]
  refine ⟨fun h => ⟨h0 h, read_line_loop_cons_reading _ _ _ keys _ _ _ _ (h0 h), ?_⟩,
    fun candidate h => ⟨h1 candidate h,
      read_line_loop_cons_reading _ _ _ keys _ _ _ _ (h1 candidate h), ?_⟩,
    fun h => ⟨h2 h, read_line_loop_cons_reading _ _ _ keys _ _ _ _ (h2 h), ?_⟩, ?_⟩
  · rw [read_line_loop_cons_reading _ _ _ ('\r' :: keys) _ _ _ _ (h0 h),
      read_line_loop_submit_cr]
  · rw [read_line_loop_cons_reading _ _ _ ('\r' :: keys) _ _ _ _ (h1 candidate h),
      read_line_loop_submit_cr]
  · rw [read_line_loop_cons_reading _ _ _ ('\r' :: keys) _ _ _ _ (h2 h),
      read_line_loop_submit_cr]
  · cases hc : completion_provider buffer with
    | nil =>
      exact ⟨_, read_line_loop_cons_reading _ _ _ keys _ _ _ _ (h0 hc)⟩
    | cons a rest =>
      cases rest with
      | nil => exact ⟨_, read_line_loop_cons_reading _ _ _ keys _ _ _ _ (h1 a hc)⟩
      | cons b rest =>
        have hl : 2 ≤ (completion_provider buffer).length := by rw [hc]; simp
        exact ⟨_, read_line_loop_cons_reading _ _ _ keys _ _ _ _ (h2 hl)⟩

theorem read_line_tab_witness :
    read_line_loop "> ".toList (fun b => helpHelloRegistry.complete b)
        ('\t' :: '\r' :: "rest".toList) "hell".toList [] =
        (some "hello ".toList, redraw "> ".toList "hello ".toList [] ++ ['\n']) ∧
      read_line_loop "> ".toList (fun b => helpHelloRegistry.complete b) ['\t', '\r']
        "he".toList [] =
        (some "he".toList,
          redraw "> ".toList "he".toList
            (print_candidates ["hello ".toList, "help ".toList] []) ++ ['\n']) ∧
      read_line_loop "> ".toList (fun b => helpHelloRegistry.complete b) ['\t', '\r']
        "x".toList [] = (some "x".toList, ['\x07', '\n']) ∧
      (read_line_loop "> ".toList (fun b => helpHelloRegistry.complete b)
        "hel\tlo\r".toList [] []).1 = some "hello".toList ∧
      (read_line_loop "> ".toList (fun b => helpHelloRegistry.complete b)
        "hell\tworld\r".toList [] []).1 = some "hello world".toList :=
  ⟨((read_line_tab "> ".toList (fun b => helpHelloRegistry.complete b) "hell".toList []
      "rest".toList).2.1 "hello ".toList (by decide)).2.2,
    ((read_line_tab "> ".toList (fun b => helpHelloRegistry.complete b) "he".toList []
      []).2.2.1 (by decide)).2.2,
    ((read_line_tab "> ".toList (fun b => helpHelloRegistry.complete b) "x".toList []
      []).1 (by decide)).2.2,
    by decide, by decide⟩

/-- C18. A carriage return or newline key ends `read_line`, which returns exactly the buffer
(empty or not) as the line. -/
theorem read_line_submit (prompt : Str) (completion_provider : Str → List Str)
    (buffer output : Str) (key : Char) (keys : List Char) (hkey : key = '\r' ∨ key = '\n') :
    read_line_key prompt completion_provider buffer output key =
        KeyStep.returned (some buffer) (output ++ ['\n']) ∧
      read_line_loop prompt completion_provider (key :: keys) buffer output =
        (some buffer, output ++ ['\n']) := by
  have h : read_line_key prompt completion_provider buffer output key =
      KeyStep.returned (some buffer) (output ++ ['\n']) := by
    rcases hkey with rfl | rfl <;> simp [read_line_key]
  exact ⟨h, read_line_loop_cons_returned _ _ _ keys _ _ _ _ h⟩

theorem read_line_submit_witness :
    read_line_loop "> ".toList (fun _ => []) ('\r' :: "ignored".toList) [] [] =
        (some [], ['\n']) ∧
      read_line_loop "> ".toList (fun _ => []) ['\n'] "step 5".toList [] =
        (some "step 5".toList, ['\n']) :=
  ⟨(read_line_submit "> ".toList (fun _ => []) [] [] '\r' "ignored".toList (Or.inl rfl)).2,
    (read_line_submit "> ".toList (fun _ => []) "step 5".toList [] '\n' [] (Or.inr rfl)).2⟩

/-- C19. A backspace (8) or delete (127) key removes the last character of a non-empty
buffer and nothing else, and leaves an empty buffer empty; `read_line` does not return but
reads the keys that follow with that buffer: a carriage return right after the key returns
the shortened, respectively the empty, buffer as the line. -/
theorem read_line_erase (prompt : Str) (completion_provider : Str → List Str)
    (output : Str) (key : Char) (keys : List Char)
    (hkey : key = Char.ofNat 8 ∨ key = Char.ofNat 127) :
    (∀ (kept : Str) (last : Char),
        read_line_key prompt completion_provider (kept ++ [last]) output key =
            KeyStep.reading kept (redraw prompt kept output) ∧
          read_line_loop prompt completion_provider (key :: keys) (kept ++ [last]) output =
            read_line_loop prompt completion_provider keys kept (redraw prompt kept output) ∧
          read_line_loop prompt completion_provider (key :: '\r' :: keys) (kept ++ [last])
              output =
            (some kept, redraw prompt kept output ++ ['\n'])) ∧
      read_line_key prompt completion_provider [] output key = KeyStep.reading [] output ∧
      read_line_loop prompt completion_provider (key :: keys) [] output =
        read_line_loop prompt completion_provider keys [] output ∧
      read_line_loop prompt completion_provider (key :: '\r' :: keys) [] output =
        (some [], output ++ ['\n']) := by
  have h1 : ∀ (kept : Str) (last : Char),
      read_line_key prompt completion_provider (kept ++ [last]) output key =
        KeyStep.reading kept (redraw prompt kept output) := by
    intro kept last
    rcases hkey with rfl | rfl <;> simp [read_line_key]
  have h2 : read_line_key prompt completion_provider [] output key =
      KeyStep.reading [] output := by
    rcases hkey with rfl | rfl <;> simp [read_line_key]
  refine ⟨fun kept last => ⟨h1 kept last, read_line_loop_cons_reading _ _ _ keys _ _ _ _
    (h1 kept last), ?_⟩, h2, read_line_loop_cons_reading _ _ _ keys _ _ _ _ h2, ?_⟩
  · rw [read_line_loop_cons_reading _ _ _ ('\r' :: keys) _ _ _ _ (h1 kept last),
      read_line_loop_submit_cr]
  · rw [read_line_loop_cons_reading _ _ _ ('\r' :: keys) _ _ _ _ h2,
      read_line_loop_submit_cr]

theorem read_line_erase_witness :
    read_line_loop "> ".toList (fun _ => []) [Char.ofNat 127, '\r'] ("hel".toList ++ ['p'])
        [] =
        (some "hel".toList, redraw "> ".toList "hel".toList [] ++ ['\n']) ∧
      read_line_loop "> ".toList (fun _ => []) [Char.ofNat 8, '\r', 'x'] [] [] =
        (some [], ['\n']) ∧
      (read_line_loop "> ".toList (fun _ => [])
        ['h', 'e', 'l', 'p', Char.ofNat 127, Char.ofNat 8, 'y', '\r'] [] []).1 =
        some "hey".toList :=
  ⟨((read_line_erase "> ".toList (fun _ => []) [] (Char.ofNat 127) [] (Or.inr rfl)).1
      "hel".toList 'p').2.2,
    (read_line_erase "> ".toList (fun _ => []) [] (Char.ofNat 8) ['x'] (Or.inl rfl)).2.2.2,
    by decide⟩

/-- C20. For a key that is neither the end-of-input key on an empty buffer, nor carriage
return or newline, nor backspace or delete, nor tab: a printable key is appended to the
buffer, any other key leaves the buffer as it is; `read_line` does not return but reads the
keys that follow with that buffer: a carriage return right after the key returns the
extended, respectively the unchanged, buffer as the line. -/
theorem read_line_other_key (prompt : Str) (completion_provider : Str → List Str)
    (buffer output : Str) (key : Char) (keys : List Char)
    (hcancel : ¬ (key = Char.ofNat 4 ∧ buffer = []))
    (hsubmit : key ≠ '\r' ∧ key ≠ '\n')
    (herase : key ≠ Char.ofNat 8 ∧ key ≠ Char.ofNat 127) (htab : key ≠ '\t') :
    (isprint key = true →
        read_line_key prompt completion_provider buffer output key =
            KeyStep.reading (buffer ++ [key]) (redraw prompt (buffer ++ [key]) output) ∧
          read_line_loop prompt completion_provider (key :: keys) buffer output =
            read_line_loop prompt completion_provider keys (buffer ++ [key])
              (redraw prompt (buffer ++ [key]) output) ∧
          read_line_loop prompt completion_provider (key :: '\r' :: keys) buffer output =
            (some (buffer ++ [key]), redraw prompt (buffer ++ [key]) output ++ ['\n'])) ∧
      (isprint key = false →
        read_line_key prompt completion_provider buffer output key =
            KeyStep.reading buffer output ∧
          read_line_loop prompt completion_provider (key :: keys) buffer output =
            read_line_loop prompt completion_provider keys buffer output ∧
          read_line_loop prompt completion_provider (key :: '\r' :: keys) buffer output =
            (some buffer, output ++ ['\n'])) := by
  have hc : ¬ (key = '\x04' ∧ buffer = []) := hcancel
  have he1 : key ≠ '\x08' := herase.1
  have he2 : key ≠ '\x7f' := herase.2
  constructor
  · intro hp
    have h : read_line_key prompt completion_provider buffer output key =
        KeyStep.reading (buffer ++ [key]) (redraw prompt (buffer ++ [key]) output) := by
      unfold read_line_key
      rw [if_neg hc, if_neg (not_or.mpr hsubmit), if_neg (not_or.mpr ⟨he1, he2⟩), if_neg htab,
        if_pos hp]
    refine ⟨h, read_line_loop_cons_reading _ _ _ keys _ _ _ _ h, ?_⟩
    rw [read_line_loop_cons_reading _ _ _ ('\r' :: keys) _ _ _ _ h, read_line_loop_submit_cr]
  · intro hp
    have h : read_line_key prompt completion_provider buffer output key =
        KeyStep.reading buffer output := by
      unfold read_line_key
      rw [if_neg hc, if_neg (not_or.mpr hsubmit), if_neg (not_or.mpr ⟨he1, he2⟩), if_neg htab,
        if_neg (by simp [hp])]
    refine ⟨h, read_line_loop_cons_reading _ _ _ keys _ _ _ _ h, ?_⟩
    rw [read_line_loop_cons_reading _ _ _ ('\r' :: keys) _ _ _ _ h, read_line_loop_submit_cr]

theorem read_line_other_key_witness :
    read_line_loop "> ".toList (fun _ => []) ['l', '\r'] "he".toList [] =
        (some "hel".toList, redraw "> ".toList "hel".toList [] ++ ['\n']) ∧
      read_line_loop "> ".toList (fun _ => []) [Char.ofNat 27, '\r'] "he".toList [] =
        (some "he".toList, ['\n']) ∧
      read_line_loop "> ".toList (fun _ => []) [Char.ofNat 4, '\r'] "he".toList [] =
        (some "he".toList, ['\n']) ∧
      (read_line_loop "> ".toList (fun _ => [])
        ['a', Char.ofNat 27, 'b', Char.ofNat 200, 'c', '\n'] [] []).1 = some "abc".toList :=
  ⟨((read_line_other_key "> ".toList (fun _ => []) "he".toList [] 'l' [] (by decide)
      (by decide) (by decide) (by decide)).1 (by decide)).2.2,
    ((read_line_other_key "> ".toList (fun _ => []) "he".toList [] (Char.ofNat 27) []
      (by decide) (by decide) (by decide) (by decide)).2 (by decide)).2.2,
    ((read_line_other_key "> ".toList (fun _ => []) "he".toList [] (Char.ofNat 4) []
      (by decide) (by decide) (by decide) (by decide)).2 (by decide)).2.2,
    by decide⟩

/-! ### Cancel and end of input in the keystroke loop -/

/-- C21. The end-of-input key (byte 4) on an empty buffer ends `read_line` with no line, and
so does a failed key read, whatever the buffer holds. -/
theorem read_line_cancel (prompt : Str) (completion_provider : Str → List Str)
    (output : Str) (keys : List Char) :
    read_line_key prompt completion_provider [] output (Char.ofNat 4) =
        KeyStep.returned none (output ++ ['\n']) ∧
      read_line_loop prompt completion_provider (Char.ofNat 4 :: keys) [] output =
        (none, output ++ ['\n']) ∧
      (∀ buffer, read_line_loop prompt completion_provider [] buffer output =
        (none, output)) := by
  have h : read_line_key prompt completion_provider [] output (Char.ofNat 4) =
      KeyStep.returned none (output ++ ['\n']) := by
    simp [read_line_key]
  exact ⟨h, read_line_loop_cons_returned _ _ _ keys _ _ _ _ h, fun _ => rfl⟩

/-- C29. The end-of-input key (byte 4) on a non-empty buffer does not end `read_line`: the
buffer stays as it is, nothing is written, and the loop goes on with the next key. -/
theorem read_line_cancel_ignored (prompt : Str) (completion_provider : Str → List Str)
    (buffer output : Str) (keys : List Char) (hb : buffer ≠ []) :
    read_line_key prompt completion_provider buffer output (Char.ofNat 4) =
        KeyStep.reading buffer output ∧
      read_line_loop prompt completion_provider (Char.ofNat 4 :: keys) buffer output =
        read_line_loop prompt completion_provider keys buffer output := by
  have h : read_line_key prompt completion_provider buffer output (Char.ofNat 4) =
      KeyStep.reading buffer output := by
    simp [read_line_key, hb, isprint]
  exact ⟨h, read_line_loop_cons_reading _ _ _ keys _ _ _ _ h⟩

theorem read_line_cancel_ignored_witness :
    read_line_loop "> ".toList (fun _ => []) [Char.ofNat 4, 'b', '\r'] "a".toList [] =
      read_line_loop "> ".toList (fun _ => []) ['b', '\r'] "a".toList [] :=
  (read_line_cancel_ignored "> ".toList (fun _ => []) "a".toList [] ['b', '\r']
    (by decide)).2

/-! ### Buffers of whitespace only -/

theorem foldl_splitChar_blank (buffer : Str) (hb : ∀ ch ∈ buffer, isspace ch = true) :
    buffer.foldl splitChar ([], []) = ([], []) := by
  induction buffer with
  | nil => rfl
  | cons c rest ih =>
    have hc : isspace c = true := hb c (List.mem_cons_self c rest)
    have e : splitChar ([], []) c = ([], []) := by simp [splitChar, hc]
    rw [List.foldl_cons, e]
    exact ih (fun ch hch => hb ch (List.mem_cons_of_mem c hch))

/-- C28. A buffer of whitespace only (of any length) has no token, and `complete` returns for
it what it returns for the empty buffer: every registered name followed by one space (a
result that does not depend on any completer). -/
theorem complete_blank_buffer {σ : Type} (r : CommandRegistry σ) (buffer : Str)
    (hb : ∀ ch ∈ buffer, isspace ch = true) :
    split_for_completion buffer = [] ∧
      r.complete buffer = r.complete [] ∧
      r.complete buffer = r.names.map (fun name => name ++ [' ']) := by
  have hs : split_for_completion buffer = [] := by
    unfold split_for_completion
    rw [foldl_splitChar_blank buffer hb]
    rfl
  have h1 := complete_of_no_token r buffer hs
  have h2 := complete_of_no_token r [] rfl
  exact ⟨hs, h1.trans h2.symm, h1⟩

theorem complete_blank_buffer_witness :
    helpHelloRegistry.complete " \t  ".toList = helpHelloRegistry.complete [] ∧
      helpHelloRegistry.complete " \t  ".toList = ["hello ".toList, "help ".toList] :=
  ⟨(complete_blank_buffer helpHelloRegistry " \t  ".toList (by decide)).2.1,
    (complete_blank_buffer helpHelloRegistry " \t  ".toList (by decide)).2.2.trans
      (by decide)⟩

/-! ### No token is empty -/

theorem tokenizeChar_tokens_ne_nil (st : TokenizeState) (c : Char)
    (h : ∀ t ∈ st.tokens, t ≠ []) : ∀ t ∈ (tokenizeChar st c).tokens, t ≠ [] := by
  unfold tokenizeChar
  split_ifs with h1 h2 h3 h4 h5
  · exact h
  · exact h
  · exact h
  · intro t ht
    simp only [List.mem_append, List.mem_singleton] at ht
    rcases ht with ht | ht
    · exact h t ht
    · rw [ht]; exact h5
  · exact h
  · exact h

theorem tokenizeLoop_tokens_ne_nil (n : Nat) (line : Str) (st : TokenizeState)
    (hn : line.length ≤ n) (h : ∀ t ∈ st.tokens, t ≠ []) :
    ∀ t ∈ (tokenizeLoop line st).tokens, t ≠ [] := by
  induction n generalizing line st with
  | zero =>
    have e : line = [] := List.length_eq_zero.mp (Nat.le_zero.mp hn)
    rw [e]
    exact h
  | succ n ih =>
    cases line with
    | nil => exact h
    | cons c rest =>
      cases rest with
      | nil => exact tokenizeChar_tokens_ne_nil st c h
      | cons next rest =>
        simp only [List.length_cons] at hn
        simp only [tokenizeLoop]
        split_ifs with hc
        · exact ih rest _ (by omega) h
        · exact ih (next :: rest) _ (by simp only [List.length_cons]; omega)
            (tokenizeChar_tokens_ne_nil st c h)

theorem tokenize_tokens_ne_nil (line : Str) : ∀ t ∈ CommandRegistry.tokenize line, t ≠ [] := by
  have h := tokenizeLoop_tokens_ne_nil line.length line
    { tokens := [], current := [], quote := '\x00' } (Nat.le_refl _)
    (by intro t ht; simp at ht)
  unfold CommandRegistry.tokenize tokenizeFlush
  split_ifs with hc
  · intro t ht
    simp only [List.mem_append, List.mem_singleton] at ht
    rcases ht with ht | ht
    · exact h t ht
    · rw [ht]; exact hc
  · exact h

/-- C26. Every token `tokenize` returns is non-empty, for every line; `cmd ""` tokenizes to
`["cmd"]`; and whenever `execute_line` calls a handler, none of the arguments it passes is
empty. -/
theorem tokenize_no_empty_token {σ : Type} (r : CommandRegistry σ) (line : Str) :
    (∀ t ∈ CommandRegistry.tokenize line, t ≠ []) ∧
      CommandRegistry.tokenize "cmd \"\"".toList = ["cmd".toList] ∧
      (∀ (context : CommandContext σ) (command : Command σ) (handler : CommandHandler σ)
        (front : Str) (others : Args),
        CommandRegistry.tokenize line = front :: others →
        r.find front = some command → command.handler = some handler →
        r.execute_line line context = some (true, handler others context) ∧
          ∀ argument ∈ others, argument ≠ []) := by
  refine ⟨tokenize_tokens_ne_nil line, by decide, ?_⟩
  intro context command handler front others htok hfind hh
  constructor
  · unfold CommandRegistry.execute_line
    rw [htok]
    simp only [hfind, hh]
    cases others with
    | nil => simp
    | cons a others => simp
  · intro argument ha
    have := tokenize_tokens_ne_nil line argument
    rw [htok] at this
    exact this (List.mem_cons_of_mem front ha)

theorem tokenize_no_empty_token_witness :
    helpHelloRegistry.execute_line "help \"\" a ''".toList freshContext =
        some (true, { console := [ConsoleCall.println "help:a".toList],
                      running := true, world := () }) ∧
      ∀ argument ∈ ["a".toList], argument ≠ [] := by
  have h := (tokenize_no_empty_token helpHelloRegistry "help \"\" a ''".toList).2.2
    freshContext (echoCommand "help".toList) (fun args context =>
      context.println ("help".toList ++ ':' :: join_with_commas args))
    "help".toList ["a".toList] (by decide) rfl rfl
  exact ⟨h.1.trans (by decide), h.2⟩

/-! ### `tokenize` and `split_for_completion` on plain lines -/

theorem foldl_tokenizeChar_eq_splitChar (s : Str)
    (hs : ∀ ch ∈ s, ch ≠ '"' ∧ ch ≠ '\x27') (T : Args) (cur : Str) :
    s.foldl tokenizeChar { tokens := T, current := cur, quote := '\x00' } =
      { tokens := (s.foldl splitChar (T, cur)).1, current := (s.foldl splitChar (T, cur)).2,
        quote := '\x00' } := by
  induction s generalizing T cur with
  | nil => rfl
  | cons c s ih =>
    have hc := hs c (List.mem_cons_self c s)
    have hrest : ∀ ch ∈ s, ch ≠ '"' ∧ ch ≠ '\x27' :=
      fun ch hch => hs ch (List.mem_cons_of_mem c hch)
    simp only [List.foldl_cons]
    by_cases hsp : isspace c = true
    · by_cases hcur : cur = []
      · have e1 : tokenizeChar { tokens := T, current := cur, quote := '\x00' } c =
            { tokens := T, current := cur, quote := '\x00' } := by
          simp [tokenizeChar, hc.1, hc.2, hsp, hcur]
        have e2 : splitChar (T, cur) c = (T, cur) := by simp [splitChar, hsp, hcur]
        rw [e1, e2, ih hrest]
      · have e1 : tokenizeChar { tokens := T, current := cur, quote := '\x00' } c =
            { tokens := T ++ [cur], current := [], quote := '\x00' } := by
          simp [tokenizeChar, hc.1, hc.2, hsp, hcur]
        have e2 : splitChar (T, cur) c = (T ++ [cur], []) := by simp [splitChar, hsp, hcur]
        rw [e1, e2, ih hrest]
    · have e1 : tokenizeChar { tokens := T, current := cur, quote := '\x00' } c =
          { tokens := T, current := cur ++ [c], quote := '\x00' } := by
        simp [tokenizeChar, hc.1, hc.2, hsp]
      have e2 : splitChar (T, cur) c = (T, cur ++ [c]) := by simp [splitChar, hsp]
      rw [e1, e2, ih hrest]

theorem tokenize_eq_split_of_plain (line : Str)
    (hl : ∀ ch ∈ line, ch ≠ '"' ∧ ch ≠ '\x27' ∧ ch ≠ '\x5c') :
    CommandRegistry.tokenize line = split_for_completion line := by
  have h1 := tokenizeLoop_append_of_no_backslash line (fun ch hch => (hl ch hch).2.2) []
    { tokens := [], current := [], quote := '\x00' }
  have h2 := foldl_tokenizeChar_eq_splitChar line
    (fun ch hch => ⟨(hl ch hch).1, (hl ch hch).2.1⟩) [] []
  simp only [List.append_nil] at h1
  unfold CommandRegistry.tokenize split_for_completion tokenizeFlush
  rw [h1, h2]
  simp [tokenizeLoop]

theorem modifyHead_self {α : Type} (l : List α) : l.modifyHead (fun x => x) = l := by
  cases l <;> rfl

theorem split_for_completion_loop_eq_runs (l : Str) (parts : List Str) (cur : Str) :
    (if (l.foldl splitChar (parts, cur)).2 ≠ [] then
        (l.foldl splitChar (parts, cur)).1 ++ [(l.foldl splitChar (parts, cur)).2]
      else (l.foldl splitChar (parts, cur)).1) =
      parts ++ (((l.splitOnP isspace).modifyHead (fun run => cur ++ run)).filter
        (fun run => decide (run ≠ []))) := by
  induction l generalizing parts cur with
  | nil =>
    by_cases hcur : cur = []
    · simp [List.splitOnP_nil, hcur]
    · simp [List.splitOnP_nil, hcur]
  | cons c l ih =>
    rw [List.foldl_cons, List.splitOnP_cons]
    by_cases hsp : isspace c = true
    · by_cases hcur : cur = []
      · have e2 : splitChar (parts, cur) c = (parts, []) := by simp [splitChar, hsp, hcur]
        rw [e2, ih parts []]
        simp [hsp, hcur, modifyHead_self]
      · have e2 : splitChar (parts, cur) c = (parts ++ [cur], []) := by
          simp [splitChar, hsp, hcur]
        rw [e2, ih (parts ++ [cur]) []]
        simp [hsp, hcur, modifyHead_self]
    · have e2 : splitChar (parts, cur) c = (parts, cur ++ [c]) := by simp [splitChar, hsp]
      rw [e2, ih parts (cur ++ [c])]
      simp [hsp, Function.comp_def]

theorem split_for_completion_eq_runs (line : Str) :
    split_for_completion line =
      (line.splitOnP isspace).filter (fun run => decide (run ≠ [])) := by
  have h := split_for_completion_loop_eq_runs line [] []
  unfold split_for_completion
  rw [h]
  have e : (fun run : Str => ([] : Str) ++ run) = fun run => run := by funext run; rfl
  rw [e, modifyHead_self]
  simp

/-- C24. On a line without double quote, single quote and backslash, `tokenize` returns what
`split_for_completion` returns, and that is the list of the maximal runs of non-whitespace
characters of the line, in order (the line cut at every whitespace character, empty pieces
dropped). -/
theorem tokenize_refines_split (line : Str)
    (hl : ∀ ch ∈ line, ch ≠ '"' ∧ ch ≠ '\x27' ∧ ch ≠ '\x5c') :
    CommandRegistry.tokenize line = split_for_completion line ∧
      split_for_completion line =
        (line.splitOnP isspace).filter (fun run => decide (run ≠ [])) ∧
      (∀ front others, split_for_completion line = front :: others →
        CommandRegistry.tokenize line = front :: others) := by
  have h := tokenize_eq_split_of_plain line hl
  exact ⟨h, split_for_completion_eq_runs line, fun front others hs => h.trans hs⟩

theorem tokenize_refines_split_witness :
    CommandRegistry.tokenize "  trace   on\toff ".toList =
        split_for_completion "  trace   on\toff ".toList ∧
      split_for_completion "  trace   on\toff ".toList =
        ["trace".toList, "on".toList, "off".toList] :=
  ⟨(tokenize_refines_split "  trace   on\toff ".toList (by decide)).1, by decide⟩

/-! ### Candidates of `complete`: no repetition, and they dispatch -/

theorem names_nodup_of_reachable {σ : Type} (r : CommandRegistry σ) (hr : r.Reachable) :
    r.names.Nodup := by
  rw [names_eq_map]
  refine List.Pairwise.imp ?_ (reachable_inv r hr).2
  intro a b hab e
  rw [e, strLess_irrefl] at hab
  exact Bool.false_ne_true hab

theorem append_space_injective :
    Function.Injective (fun name : Str => name ++ [' ']) := by
  intro a b h
  exact List.append_cancel_right h

/-- C27. On a registry built by `add` calls, whatever the completers are, `complete` returns
no candidate twice, for every buffer. -/
theorem complete_nodup {σ : Type} (r : CommandRegistry σ) (hr : r.Reachable) (buffer : Str) :
    (r.complete buffer).Nodup := by
  have hn := names_nodup_of_reachable r hr
  rcases hsplit : split_for_completion buffer with _ | ⟨front, others⟩
  · rw [complete_of_no_token r buffer hsplit]
    exact hn.map append_space_injective
  · by_cases hcond : others = [] ∧ trailing_space buffer = false
    · rw [hcond.1] at hsplit
      rw [complete_of_one_token r buffer front hsplit hcond.2]
      exact (hn.filter _).map append_space_injective
    · have hrule : others ≠ [] ∨ trailing_space buffer = true := by
        by_cases ho : others = []
        · right
          cases ht : trailing_space buffer with
          | true => rfl
          | false => exact absurd ⟨ho, ht⟩ hcond
        · exact Or.inl ho
      cases hfind : r.find front with
      | none =>
        have e : r.complete buffer = [] := by
          unfold CommandRegistry.complete
          rw [hsplit]
          have hc : ¬ ((front :: others).length = 1 ∧ trailing_space buffer = false) := by
            rintro ⟨hl, ht⟩
            exact hcond ⟨List.length_eq_zero.mp (by simpa using hl), ht⟩
          simp only [hc, if_false, hfind]
        rw [e]
        exact List.nodup_nil
      | some command =>
        cases hcomp : command.completer with
        | none =>
          have e : r.complete buffer = [] := by
            unfold CommandRegistry.complete
            rw [hsplit]
            have hc : ¬ ((front :: others).length = 1 ∧ trailing_space buffer = false) := by
              rintro ⟨hl, ht⟩
              exact hcond ⟨List.length_eq_zero.mp (by simpa using hl), ht⟩
            simp only [hc, if_false, hfind, hcomp]
          rw [e]
          exact List.nodup_nil
        | some completer =>
          rw [complete_eq_completion_lines r buffer front others command completer hsplit
            hrule hfind hcomp]
          refine List.Pairwise.imp ?_ (completion_lines_spec _ _ _).1
          intro a b hab e
          rw [e, strLess_irrefl] at hab
          exact Bool.false_ne_true hab

theorem complete_nodup_witness :
    (traceRegistry.complete "trace o".toList).Nodup ∧
      (CommandRegistry.complete
        ((CommandRegistry.empty.add
          { name := "dup".toList, description := [],
            handler := some (fun _ (context : CommandContext Unit) => context),
            completer := some (fun _ _ => ["x".toList, "x".toList]) }).2)
        "dup ".toList) = ["dup x".toList] :=
  ⟨complete_nodup traceRegistry
      (CommandRegistry.Reachable.add _ _ CommandRegistry.Reachable.empty) "trace o".toList,
    by decide⟩

theorem tokenize_word_space (name : Str) (hne : name ≠ []) (hw : ∀ ch ∈ name, WordChar ch) :
    CommandRegistry.tokenize (name ++ [' ']) = [name] := by
  have h1 := tokenizeLoop_word name hw [' '] [] []
  simp only [List.nil_append] at h1
  unfold CommandRegistry.tokenize
  rw [h1]
  simp [tokenizeLoop, tokenizeChar, isspace, hne, tokenizeFlush]

/-- C25. On a registry built by `add` calls whose names hold no whitespace, quote or
backslash, for a buffer with no token or with one token and no trailing whitespace: every
candidate of `complete` is a registered name followed by a space, and `execute_line` on it
returns true with the context the handler of that very command produces from the empty
argument list. -/
theorem completion_dispatches {σ : Type} (r : CommandRegistry σ) (hr : r.Reachable)
    (hnames : ∀ name ∈ r.names, ∀ ch ∈ name, WordChar ch) (buffer : Str)
    (hbuf : split_for_completion buffer = [] ∨
      ∃ token, split_for_completion buffer = [token] ∧ trailing_space buffer = false)
    (context : CommandContext σ) :
    ∀ candidate ∈ r.complete buffer,
      ∃ (name : Str) (command : Command σ) (handler : CommandHandler σ),
        candidate = name ++ [' '] ∧ r.find name = some command ∧ command.name = name ∧
          command.handler = some handler ∧
          r.execute_line candidate context = some (true, handler [] context) := by
  intro candidate hc
  have hname : ∃ name, name ∈ r.names ∧ candidate = name ++ [' '] := by
    rcases hbuf with h | ⟨token, h, ht⟩
    · rw [complete_of_no_token r buffer h, List.mem_map] at hc
      obtain ⟨name, hn, rfl⟩ := hc
      exact ⟨name, hn, rfl⟩
    · rw [complete_of_one_token r buffer token h ht, List.mem_map] at hc
      obtain ⟨name, hn, rfl⟩ := hc
      exact ⟨name, (List.mem_filter.mp hn).1, rfl⟩
  obtain ⟨name, hn, rfl⟩ := hname
  have hcont := (mem_names_iff_contains r hr name).mp hn
  unfold CommandRegistry.contains at hcont
  obtain ⟨command, hfind⟩ := Option.isSome_iff_exists.mp hcont
  have hfind' : r.find name = some command := hfind
  have hinv := find_some_of_reachable r hr name command hfind'
  obtain ⟨handler, hh⟩ := Option.isSome_iff_exists.mp hinv.2.2
  have hne : name ≠ [] := by
    intro e
    exact hinv.2.1 (hinv.1.trans e)
  have htok := tokenize_word_space name hne (hnames name hn)
  refine ⟨name, command, handler, rfl, hfind', hinv.1, hh, ?_⟩
  unfold CommandRegistry.execute_line
  rw [htok]
  simp [hfind', hh]

theorem completion_dispatches_witness :
    ∃ (name : Str) (command : Command Unit) (handler : CommandHandler Unit),
      "hello ".toList = name ++ [' '] ∧ helpHelloRegistry.find name = some command ∧
        command.name = name ∧ command.handler = some handler ∧
        helpHelloRegistry.execute_line "hello ".toList freshContext =
          some (true, handler [] freshContext) :=
  completion_dispatches helpHelloRegistry helpHelloRegistry_reachable (by decide)
    "he".toList (Or.inr ⟨"he".toList, by decide, by decide⟩) freshContext "hello ".toList
    (by decide)

/-! ### `parse_int` and decimal texts -/

theorem digitChar_spec (m : Nat) (hm : m < 10) :
    isdigit (Nat.digitChar m) = true ∧ (Nat.digitChar m).toNat - 48 = m := by
  interval_cases m <;> decide

theorem digitsValue_append (a : Str) (c : Char) :
    digitsValue (a ++ [c]) = 10 * digitsValue a + (c.toNat - 48) := by
  simp [digitsValue, List.foldl_append]

theorem toDigitsCore_spec (fuel n : Nat) (ds : Str) (h : n < fuel) :
    ∃ pre, Nat.toDigitsCore 10 fuel n ds = pre ++ ds ∧ pre ≠ [] ∧
      (∀ ch ∈ pre, isdigit ch = true) ∧ digitsValue pre = n := by
  induction fuel generalizing n ds with
  | zero => exact absurd h (Nat.not_lt_zero n)
  | succ fuel ih =>
    have hd := digitChar_spec (n % 10) (Nat.mod_lt n (by decide))
    simp only [Nat.toDigitsCore]
    by_cases h0 : n / 10 = 0
    · rw [if_pos h0]
      refine ⟨[Nat.digitChar (n % 10)], rfl, by simp, ?_, ?_⟩
      · intro ch hch
        rw [List.mem_singleton.mp hch]
        exact hd.1
      · have hn : n % 10 = n := by omega
        have e := digitsValue_append [] (Nat.digitChar (n % 10))
        simp only [List.nil_append] at e
        rw [e, hd.2, hn]
        simp [digitsValue]
    · rw [if_neg h0]
      have hlt : n / 10 < fuel := by omega
      obtain ⟨pre, hpre, _, hdig, hval⟩ := ih (n / 10) (Nat.digitChar (n % 10) :: ds) hlt
      refine ⟨pre ++ [Nat.digitChar (n % 10)], ?_, by simp, ?_, ?_⟩
      · rw [hpre]; simp
      · intro ch hch
        rcases List.mem_append.mp hch with hch | hch
        · exact hdig ch hch
        · rw [List.mem_singleton.mp hch]
          exact hd.1
      · rw [digitsValue_append, hval, hd.2]
        omega

theorem toDigits_isDecimalText (n : Nat) : IsDecimalText (Nat.toDigits 10 n) n := by
  obtain ⟨pre, hpre, hne, hdig, hval⟩ := toDigitsCore_spec (n + 1) n [] (Nat.lt_succ_self n)
  have e : Nat.toDigits 10 n = pre := by
    unfold Nat.toDigits
    rw [hpre]; simp
  rw [e]
  exact ⟨hne, hdig, hval⟩

theorem wordChar_of_isdigit (c : Char) (h : isdigit c = true) : WordChar c := by
  simp only [isdigit, Bool.and_eq_true, decide_eq_true_eq] at h
  refine ⟨?_, ?_, ?_, ?_⟩
  · simp only [isspace, Bool.or_eq_false_iff, Bool.and_eq_false_iff, decide_eq_false_iff_not]
    omega
  · intro e; rw [e] at h; revert h; decide
  · intro e; rw [e] at h; revert h; decide
  · intro e; rw [e] at h; revert h; decide

theorem parse_int_of_decimal (text : Str) (n : Nat) (h : IsDecimalText text n)
    (hn : n ≤ 2147483647) : parse_int text = some (n : Int) := by
  obtain ⟨hne, hdig, hval⟩ := h
  have hhead : ¬ text.head? = some '-' := by
    intro e
    cases text with
    | nil => exact hne rfl
    | cons c rest =>
      simp only [List.head?_cons, Option.some.injEq] at e
      have := hdig c (List.mem_cons_self c rest)
      rw [e] at this
      revert this; decide
  have htake : text.takeWhile isdigit = text := List.takeWhile_eq_self_iff.mpr hdig
  have hdrop : text.dropWhile isdigit = [] := List.dropWhile_eq_nil_iff.mpr hdig
  have hrange : ¬ (((digitsValue text : Nat) : Int) < -2147483648 ∨
      2147483647 < ((digitsValue text : Nat) : Int)) := by
    rw [hval]; omega
  unfold parse_int from_chars
  simp only [if_neg hhead, htake, hdrop, if_neg hne, if_neg hrange]
  simp [hval]

theorem decimal_of_parse_int_pos (text : Str) (v : Int) (h : parse_int text = some v)
    (hv : 0 < v) : IsDecimalText text v.toNat ∧ 0 < v.toNat := by
  unfold parse_int at h
  split_ifs at h with hbad
  have hok := not_or.mp hbad
  have hec : (from_chars text 0).ec = Errc.ok := not_not.mp hok.1
  have hrest : (from_chars text 0).rest = [] := not_not.mp hok.2
  have hvalue : (from_chars text 0).value = v := Option.some.inj h
  by_cases hneg : text.head? = some '-'
  · exfalso
    unfold from_chars at hec hvalue
    simp only [if_pos hneg] at hec hvalue
    split_ifs at hec hvalue with h1 h2
    simp only at hvalue
    omega
  · unfold from_chars at hec hrest hvalue
    simp only [if_neg hneg] at hec hrest hvalue
    split_ifs at hec hrest hvalue with h1 h2
    simp only at hrest hvalue
    have hdig : ∀ ch ∈ text, isdigit ch = true := List.dropWhile_eq_nil_iff.mp hrest
    have htake : text.takeWhile isdigit = text := List.takeWhile_eq_self_iff.mpr hdig
    rw [htake] at hvalue h1
    refine ⟨⟨h1, hdig, ?_⟩, ?_⟩
    · rw [← hvalue]; simp
    · rw [← hvalue] at hv ⊢
      simpa using hv

/-! ### The `step` scenario -/

theorem tokenize_two_words (a b : Str) (ha : a ≠ []) (hb : b ≠ [])
    (hwa : ∀ ch ∈ a, WordChar ch) (hwb : ∀ ch ∈ b, WordChar ch) :
    CommandRegistry.tokenize (a ++ ' ' :: b) = [a, b] := by
  have h1 := tokenizeLoop_word a hwa (' ' :: b) [] []
  have h2 := tokenizeLoop_word b hwb [] [a] []
  simp only [List.nil_append, List.append_nil] at h1 h2
  unfold CommandRegistry.tokenize
  rw [h1, tokenizeLoop_cons_of_ne _ _ _ (by decide)]
  have e1 : tokenizeChar { tokens := [], current := a, quote := '\x00' } ' ' =
      { tokens := [a], current := [], quote := '\x00' } := by
    simp [tokenizeChar, isspace, ha]
  rw [e1, h2]
  simp [tokenizeLoop, tokenizeFlush, hb]

theorem wrapInt_of_range (x : Int) (h1 : -2147483648 ≤ x) (h2 : x ≤ 2147483647) :
    wrapInt x = x := by
  unfold wrapInt
  omega

theorem execute_line_step {σ : Type} (r : CommandRegistry σ) (line : Str)
    (context : CommandContext σ) (front : Str) (others : Args) (command : Command σ)
    (handler : CommandHandler σ) (htok : CommandRegistry.tokenize line = front :: others)
    (hfind : r.find front = some command) (hh : command.handler = some handler) :
    r.execute_line line context = some (true, handler others context) := by
  unfold CommandRegistry.execute_line
  rw [htok]
  simp only [hfind, hh]
  cases others with
  | nil => simp
  | cons a others => simp

/-- C22, as stated, fails outside the `int` range. With the counter at -1, the line
`step 2147483648` names a positive integer with `c + n` inside the `int` range, yet
`parse_int` refuses the number and the usage message is printed with the counter left at -1.
With the counter at 2147483647, the line `step` does not make it 2147483648. -/
theorem step_scenario_out_of_range :
    (IsDecimalText "2147483648".toList 2147483648 ∧
        (-2147483648 : Int) ≤ -1 + 2147483648 ∧ (-1 : Int) + 2147483648 ≤ 2147483647 ∧
        parse_int "2147483648".toList = none ∧
        stepRegistry.execute_line "step 2147483648".toList
            { console := [], running := true,
              world := { program_counter_ := -1, tracing_enabled_ := false } } =
          some (true,
            { console := [ConsoleCall.println_color "Usage: step [positive_integer]".toList
                Color.BrightRed],
              running := true,
              world := { program_counter_ := -1, tracing_enabled_ := false } })) ∧
      (stepRegistry.execute_line "step".toList
          { console := [], running := true,
            world := { program_counter_ := 2147483647, tracing_enabled_ := false } }).map
        (fun after => (after.1, after.2.world.program_counter_)) =
          some (true, -2147483648) := by
  refine ⟨⟨⟨by decide, by decide, by decide⟩, by decide, by decide, by decide, by decide⟩,
    by decide⟩

/-- C22, amended. With the `step` command of the example registered and the counter at `c`:
the line `step` makes the counter `c + 1` when `c + 1` is inside the `int` range; the line
`step N`, for `N` a decimal text of a positive `n` with `n` and `c + n` inside the `int`
range, makes it `c + n`; a line whose first argument is not a decimal text of a positive
integer prints the usage message and leaves the counter alone; every one of these calls
returns true. From counter 0 the lines `step`, `step 5`, `step -1` leave the counter at 1, 6,
6, and `0`, `abc`, `5x` are refused like `-1`. -/
theorem step_scenario_in_range (r : CommandRegistry DebuggerApp)
    (hfind : r.find "step".toList = some stepCommand) (context : CommandContext DebuggerApp) :
    (-2147483648 ≤ context.world.program_counter_ + 1 →
        context.world.program_counter_ + 1 ≤ 2147483647 →
        r.execute_line "step".toList context =
          some (true,
            { console := context.console ++
                [ConsoleCall.println_color
                  ("Stepped to ".toList ++ to_string (context.world.program_counter_ + 1))
                  Color.BrightCyan],
              running := context.running,
              world := { program_counter_ := context.world.program_counter_ + 1,
                         tracing_enabled_ := context.world.tracing_enabled_ } })) ∧
      (∀ (N : Str) (n : Nat), IsDecimalText N n → 0 < n → n ≤ 2147483647 →
        -2147483648 ≤ context.world.program_counter_ + n →
        context.world.program_counter_ + n ≤ 2147483647 →
        r.execute_line ("step ".toList ++ N) context =
          some (true,
            { console := context.console ++
                [ConsoleCall.println_color
                  ("Stepped to ".toList ++ to_string (context.world.program_counter_ + n))
                  Color.BrightCyan],
              running := context.running,
              world := { program_counter_ := context.world.program_counter_ + n,
                         tracing_enabled_ := context.world.tracing_enabled_ } })) ∧
      (∀ n : Nat, IsDecimalText (Nat.toDigits 10 n) n) ∧
      (∀ (line X : Str) (rest : Args),
        CommandRegistry.tokenize line = "step".toList :: X :: rest →
        (¬ ∃ n : Nat, 0 < n ∧ IsDecimalText X n) →
        r.execute_line line context =
          some (true,
            { console := context.console ++
                [ConsoleCall.println_color "Usage: step [positive_integer]".toList
                  Color.BrightRed],
              running := context.running,
              world := context.world })) ∧
      ((stepRegistry.execute_line "step".toList debuggerStart).map
          (fun after => (after.1, after.2.world.program_counter_)) = some (true, 1) ∧
        ∀ after1, stepRegistry.execute_line "step".toList debuggerStart = some after1 →
          ((stepRegistry.execute_line "step 5".toList after1.2).map
              (fun after => (after.1, after.2.world.program_counter_)) = some (true, 6) ∧
            ∀ after2, stepRegistry.execute_line "step 5".toList after1.2 = some after2 →
              ∀ refused ∈ ["step -1".toList, "step 0".toList, "step abc".toList,
                  "step 5x".toList],
                stepRegistry.execute_line refused after2.2 =
                  some (true, after2.2.println_color
                    "Usage: step [positive_integer]".toList Color.BrightRed) ∧
                  (after2.2.println_color "Usage: step [positive_integer]".toList
                    Color.BrightRed).world.program_counter_ = 6)) := by
  refine ⟨?_, ?_, toDigits_isDecimalText, ?_, ?_⟩
  · intro hlow hsum
    rw [execute_line_step r "step".toList context "step".toList [] stepCommand stepHandler
      (by decide) hfind rfl]
    simp only [stepHandler, ne_eq, not_true_eq_false, if_false, CommandContext.println_color]
    rw [wrapInt_of_range _ hlow hsum]
  · intro N n hN hn hmax hlow hsum
    have hw : ∀ ch ∈ N, WordChar ch := fun ch hch => wordChar_of_isdigit ch (hN.2.1 ch hch)
    have htok : CommandRegistry.tokenize ("step ".toList ++ N) = ["step".toList, N] :=
      tokenize_two_words "step".toList N (by decide) hN.1 (by decide) hw
    have hparse := parse_int_of_decimal N n hN hmax
    rw [execute_line_step r _ context "step".toList [N] stepCommand stepHandler htok hfind
      rfl]
    have hpos : ¬ ((n : Int) ≤ 0) := by omega
    simp only [stepHandler, ne_eq, List.cons_ne_nil, not_false_eq_true, if_true,
      List.headD_cons, hparse, hpos, if_false, CommandContext.println_color]
    rw [wrapInt_of_range _ hlow hsum]
  · intro line X rest htok hX
    rw [execute_line_step r line context "step".toList (X :: rest) stepCommand stepHandler
      htok hfind rfl]
    simp only [stepHandler, ne_eq, List.cons_ne_nil, not_false_eq_true, if_true,
      List.headD_cons]
    cases hp : parse_int X with
    | none => rfl
    | some v =>
      have hv : v ≤ 0 := by
        by_contra hv
        have := decimal_of_parse_int_pos X v hp (by omega)
        exact hX ⟨v.toNat, this.2, this.1⟩
      simp only [hv, if_true]
      rfl
  · decide

theorem step_scenario_in_range_witness :
    stepRegistry.execute_line ("step ".toList ++ "12".toList)
        { console := [], running := true,
          world := { program_counter_ := -5, tracing_enabled_ := true } } =
      some (true,
        { console := [ConsoleCall.println_color "Stepped to 7".toList Color.BrightCyan],
          running := true,
          world := { program_counter_ := 7, tracing_enabled_ := true } }) :=
  ((step_scenario_in_range stepRegistry rfl
      { console := [], running := true,
        world := { program_counter_ := -5, tracing_enabled_ := true } }).2.1
    "12".toList 12 ⟨by decide, by decide, by decide⟩ (by decide) (by decide) (by decide)
    (by decide)).trans (by decide)

/-! ### Scoped raw mode -/

/-- C23. On an interactive terminal: when `tcgetattr` and `tcsetattr` succeed, the keystroke
loop runs under the raw settings and, whatever keys arrive (so on the return after a submit
key, after the end-of-input key and after a failed key read alike), the settings at return
are the ones found on entry; when one of the two calls fails, the settings are never changed
and `read_line` returns what reading one whole line gives. -/
theorem read_line_restores_settings (env : ReadEnv) (prompt : Str)
    (completion_provider : Str → List Str) (settings : Termios) (output : Str)
    (hi : env.interactive = true) :
    (env.tcgetattr_ok = true → env.tcsetattr_ok = true →
        (LineEditor.read_line env prompt completion_provider settings output).loop_settings =
            some (rawState settings) ∧
          (LineEditor.read_line env prompt completion_provider settings output).settings =
            settings ∧
          (LineEditor.read_line env prompt completion_provider settings output).result =
            (read_line_loop prompt completion_provider env.keys [] (output ++ prompt)).1) ∧
      (env.tcgetattr_ok = false ∨ env.tcsetattr_ok = false →
        (RawModeGuard.construct env settings).2 = settings ∧
          (LineEditor.read_line env prompt completion_provider settings output).loop_settings =
            none ∧
          (LineEditor.read_line env prompt completion_provider settings output).settings =
            settings ∧
          (LineEditor.read_line env prompt completion_provider settings output).result =
            env.getline) := by
  constructor
  · intro hg hs
    have hc : RawModeGuard.construct env settings =
        ({ original_state_ := settings, enabled_ := true }, rawState settings) := by
      simp [RawModeGuard.construct, hg, hs]
    simp [LineEditor.read_line, hi, hc, RawModeGuard.destruct]
  · intro hfail
    have hc : (RawModeGuard.construct env settings).2 = settings ∧
        (RawModeGuard.construct env settings).1.enabled_ = false := by
      unfold RawModeGuard.construct
      by_cases hg : env.tcgetattr_ok = false
      · simp [hg]
      · have hs : env.tcsetattr_ok = false := by
          rcases hfail with h | h
          · exact absurd h hg
          · exact h
        simp [hg, hs]
    refine ⟨hc.1, ?_, ?_, ?_⟩
    · simp [LineEditor.read_line, hi, hc.2]
    · simp [LineEditor.read_line, hi, hc.2, hc.1, RawModeGuard.destruct]
    · simp [LineEditor.read_line, hi, hc.2]

theorem read_line_restores_settings_witness :
    (∀ keys ∈ [['h', 'i', '\r'], [Char.ofNat 4], ['h', 'i']],
        (LineEditor.read_line
          { interactive := true, tcgetattr_ok := true, tcsetattr_ok := true, keys := keys,
            getline := none }
          "> ".toList (fun _ => [])
          { c_lflag := 35387, c_cc_VMIN := 1, c_cc_VTIME := 0 } []).settings =
          { c_lflag := 35387, c_cc_VMIN := 1, c_cc_VTIME := 0 }) ∧
      (LineEditor.read_line
          { interactive := true, tcgetattr_ok := true, tcsetattr_ok := true,
            keys := ['h', 'i', '\r'], getline := none }
          "> ".toList (fun _ => [])
          { c_lflag := 35387, c_cc_VMIN := 4, c_cc_VTIME := 2 } []).loop_settings =
        some { c_lflag := 35377, c_cc_VMIN := 1, c_cc_VTIME := 0 } ∧
      (LineEditor.read_line
          { interactive := true, tcgetattr_ok := true, tcsetattr_ok := false,
            keys := ['h', 'i', '\r'], getline := some "typed".toList }
          "> ".toList (fun _ => [])
          { c_lflag := 35387, c_cc_VMIN := 1, c_cc_VTIME := 0 } []).result =
        some "typed".toList :=
  ⟨fun keys _ =>
      ((read_line_restores_settings
        { interactive := true, tcgetattr_ok := true, tcsetattr_ok := true, keys := keys,
          getline := none }
        "> ".toList (fun _ => []) { c_lflag := 35387, c_cc_VMIN := 1, c_cc_VTIME := 0 } []
        rfl).1 rfl rfl).2.1,
    by decide,
    ((read_line_restores_settings
      { interactive := true, tcgetattr_ok := true, tcsetattr_ok := false,
        keys := ['h', 'i', '\r'], getline := some "typed".toList }
      "> ".toList (fun _ => []) { c_lflag := 35387, c_cc_VMIN := 1, c_cc_VTIME := 0 } []
      rfl).2 (Or.inr rfl)).2.2.2⟩

end opentui
